import Mathlib

set_option linter.unusedSectionVars false

/-!
Shallow embedding of the IPA-based polynomial commitment scheme of
`src/provider/ipa_pc.rs`: the inner-product argument `prove`/`verify`,
the evaluation engine around it, and the helper routines
(`inner_product`, `batch_invert`, the tensor weight vector `s`).

Embedding conventions.  The scalar field is an arbitrary `Field F`; the
commitment group is an arbitrary `F`-module `G`.  The collaborator
operations that live outside this file's source (the Pedersen commitment
and the commitment-key operations of `provider/pedersen.rs`, the
transcript engine, and `EqPolynomial::evals`) are modelled from the
spec's collaborator contracts; each such definition is marked
`Modelled from the spec`.  Point compression is injective by contract
(equal bytes iff equal value), so compressed commitments are identified
with group elements and `reinterpret_commitments_as_ck` is the identity
on the underlying points.  The Fiat-Shamir transcript is an arbitrary
deterministic absorb/challenge state machine over an abstract state
type `σ`.  Rust panics (`unwrap` on a zero inverse, indexing an empty
vector, a failed `assert_eq!`) are a distinct outcome `PRes.panic`,
separate from a returned `NovaError`.
-/

namespace IpaPC

/-- The two `NovaError` kinds this module produces: `InvalidInputLength`
for shape/length violations (and degenerate batch inversion), and
`InvalidIPA` when the final verification equality fails. -/
inductive NovaError : Type
  | InvalidInputLength
  | InvalidIPA
deriving DecidableEq

/-- Outcome of running a piece of the Rust code: a returned value, a
returned error (`Err(..)`), or a panic. -/
inductive PRes (α : Type) : Type
  | ok (a : α)
  | err (e : NovaError)
  | panic
deriving DecidableEq

/-- The byte-string transcript labels used by this module. -/
inductive Label : Type
  | comm_a_vec
  | c
  | L
  | R
  | r
  | challenge_r
deriving DecidableEq

/-- Modelled from the spec: the external `TranscriptEngine` collaborator —
an ordered, label-delimited absorb/derive-challenge state machine over a
state type `σ`.  `absorbProtocolName` is the single fixed
`absorb_bytes(b"protocol-name", b"inner product argument")` call. -/
structure TE (F G σ : Type) where
  absorbProtocolName : σ → σ
  absorbComm : Label → G → σ → σ
  absorbScalar : Label → F → σ → σ
  challenge : Label → σ → F × σ

variable {F G σ : Type} [Field F] [DecidableEq F] [AddCommGroup G] [Module F G]
  [DecidableEq G]

/-- Modelled from the spec: the collaborator's linear commitment,
`Commit(key, scalars) = Σ scalars_i • key_i` (the Pedersen MSM uses the
first `|scalars|` generators of the key). -/
def commit (ck : List G) (v : List F) : G :=
  (List.zipWith (fun g x => x • g) ck v).sum

/-- The summation performed by `inner_product` (a parallel map/reduce in
the source). -/
def dotProd (a b : List F) : F :=
  (List.zipWith (fun x y => x * y) a b).sum

/-- `inner_product` from the source.  It `assert_eq!`s the two lengths,
which is a panic on mismatch. -/
def inner_product (a b : List F) : PRes F :=
  if a.length = b.length then .ok (dotProd a b) else .panic

/-- Modelled from the spec: `CommitmentKey::scale(s)` — every generator
multiplied by `s`. -/
def scaleKey (s : F) (ck : List G) : List G :=
  ck.map (fun g => s • g)

/-- Modelled from the spec: `CommitmentKey::fold(x, y)` — the pairwise
weighted combine `key'_i = x • ck_L_i + y • ck_R_i` of the two
half-length keys obtained by splitting at the midpoint. -/
def foldKey (x y : F) (ck : List G) : List G :=
  List.zipWith (fun l rr => x • l + y • rr)
    (ck.take (ck.length / 2)) (ck.drop (ck.length / 2))

/-- `x.invert().unwrap()`: the field inverse for nonzero `x`, a panic
when `x = 0` (`CtOption::unwrap` on `is_none`). -/
def invertUnwrap (x : F) : PRes F :=
  if x = 0 then .panic else .ok x⁻¹

/-- `InnerProductInstance`: a commitment to `a_vec`, the public vector
`b_vec`, and the claim `c = <a_vec, b_vec>`. -/
structure InnerProductInstance (F G : Type) where
  comm_a_vec : G
  b_vec : List F
  c : F

/-- `InnerProductWitness`: the private opening `a_vec`. -/
structure InnerProductWitness (F : Type) where
  a_vec : List F

/-- `InnerProductArgument`: the proof — `log2(n)` cross commitments per
side plus the final folded scalar.  Compressed commitments are
identified with group elements (compression is injective). -/
structure InnerProductArgument (F G : Type) where
  L_vec : List G
  R_vec : List G
  a_hat : F
deriving DecidableEq

/-- The `prove_inner` closure: one round of the recursive argument.
Splits the key at `n/2`, computes the cross inner products and the
`L`/`R` commitments, absorbs them, draws the round challenge, and folds
`a_vec` (weights `r`, `r⁻¹`), `b_vec` (weights `r⁻¹`, `r`) and the key
(weights `r⁻¹`, `r`).  The slices of `b_vec` are `b_vec[0..n/2]` and
`b_vec[n/2..n]` with `n = a_vec.len()`; every caller maintains
`b_vec.len() = a_vec.len()`. -/
def prove_inner (eng : TE F G σ) (ck_c : List G) (a_vec b_vec : List F)
    (ck : List G) (transcript : σ) :
    PRes ((G × G × List F × List F × List G) × σ) :=
  let n := a_vec.length
  let ck_L := ck.take (n / 2)
  let ck_R := ck.drop (n / 2)
  match inner_product (a_vec.take (n / 2)) (b_vec.drop (n / 2)) with
  | .err e => .err e
  | .panic => .panic
  | .ok c_L =>
  match inner_product (a_vec.drop (n / 2)) (b_vec.take (n / 2)) with
  | .err e => .err e
  | .panic => .panic
  | .ok c_R =>
    let Lc := commit (ck_R ++ ck_c) (a_vec.take (n / 2) ++ [c_L])
    let Rc := commit (ck_L ++ ck_c) (a_vec.drop (n / 2) ++ [c_R])
    let t1 := eng.absorbComm .L Lc transcript
    let t2 := eng.absorbComm .R Rc t1
    let rp := eng.challenge .challenge_r t2
    match invertUnwrap rp.1 with
    | .err e => .err e
    | .panic => .panic
    | .ok r_inverse =>
      let a_vec_folded := List.zipWith (fun aL aR => aL * rp.1 + r_inverse * aR)
        (a_vec.take (n / 2)) (a_vec.drop (n / 2))
      let b_vec_folded := List.zipWith (fun bL bR => bL * r_inverse + rp.1 * bR)
        (b_vec.take (n / 2)) (b_vec.drop (n / 2))
      let ck_folded := foldKey r_inverse rp.1 ck
      .ok ((Lc, Rc, a_vec_folded, b_vec_folded, ck_folded), rp.2)

/-- The `for _i in 0..log2(n)` loop of `prove`: iterate `prove_inner`,
accumulating the `L`/`R` commitments in round order. -/
def proveLoop (eng : TE F G σ) (ck_c : List G) :
    Nat → List F → List F → List G → σ →
    PRes ((List G × List G × List F × List F × List G) × σ)
  | 0, a_vec, b_vec, ck, transcript => .ok (([], [], a_vec, b_vec, ck), transcript)
  | k + 1, a_vec, b_vec, ck, transcript =>
    match prove_inner eng ck_c a_vec b_vec ck transcript with
    | .err e => .err e
    | .panic => .panic
    | .ok ((Lc, Rc, af, bf, ckf), t) =>
      match proveLoop eng ck_c k af bf ckf t with
      | .err e => .err e
      | .panic => .panic
      | .ok ((Ls, Rs, a2, b2, ck2), t2) => .ok ((Lc :: Ls, Rc :: Rs, a2, b2, ck2), t2)

/-- `InnerProductArgument::prove`.  The source computes the round count
as `(U.b_vec.len() as f64).log2() as usize`, which agrees with
`Nat.log2` on the power-of-two lengths the protocol uses (and both are
`0` on length `0`, where `f64::log2` is `-inf` and the cast saturates).
`a_vec[0]` on the final vector panics when it is empty. -/
def InnerProductArgument.prove (eng : TE F G σ) (ck ck_c : List G)
    (U : InnerProductInstance F G) (W : InnerProductWitness F) (transcript : σ) :
    PRes (InnerProductArgument F G × σ) :=
  let t0 := eng.absorbProtocolName transcript
  if U.b_vec.length ≠ W.a_vec.length then .err .InvalidInputLength
  else
    let t1 := eng.absorbComm .comm_a_vec U.comm_a_vec t0
    let t2 := eng.absorbScalar .c U.c t1
    let rp := eng.challenge .r t2
    let ck_c2 := scaleKey rp.1 ck_c
    match proveLoop eng ck_c2 (Nat.log2 U.b_vec.length) W.a_vec U.b_vec ck rp.2 with
    | .err e => .err e
    | .panic => .panic
    | .ok ((L_vec, R_vec, af, _, _), t3) =>
      match af with
      | [] => .panic
      | a0 :: _ => .ok (⟨L_vec, R_vec, a0⟩, t3)

/-- The running prefix products of the `batch_invert` closure:
`products[i] = v[0] * ... * v[i-1]` (the accumulator value before
multiplying in `v[i]`). -/
def prefixProducts (acc : F) : List F → List F
  | [] => []
  | x :: xs => acc :: prefixProducts (acc * x) xs

/-- The unwinding loop of `batch_invert`, processing index
`j = len-1-i` for `i = 0, 1, ...`: emit `products[j] * acc`, then
`acc := acc * v[j]`.  The argument list is `(v[j], products[j])` pairs
in reverse index order, and the emitted inverses come out in reverse
index order as well. -/
def batchUnwind (acc : F) : List (F × F) → List F
  | [] => []
  | (vj, pj) :: rest => (pj * acc) :: batchUnwind (acc * vj) rest

/-- The `batch_invert` closure in `verify`: prefix products, a zero
check on the total product (else `Err(InvalidInputLength)`), one
inversion of the total (its `unwrap` cannot fire: the total was just
checked nonzero), then the unwinding loop. -/
def batch_invert (v : List F) : PRes (List F) :=
  let products := prefixProducts 1 v
  let acc := v.foldl (fun a x => a * x) 1
  if acc = 0 then .err .InvalidInputLength
  else .ok ((batchUnwind acc⁻¹ ((v.zip products).reverse)).reverse)

/-- The verifier's challenge replay: for each round absorb `L_i`, `R_i`
and draw one challenge, in the recorded order. -/
def replayChallenges (eng : TE F G σ) : List (G × G) → σ → List F × σ
  | [], t => ([], t)
  | (Lc, Rc) :: rest, t =>
    let t1 := eng.absorbComm .L Lc t
    let t2 := eng.absorbComm .R Rc t1
    let rp := eng.challenge .challenge_r t2
    let rst := replayChallenges eng rest rp.2
    (rp.1 :: rst.1, rst.2)

/-- One entry of the tensor weight vector `s` in `verify`:
`s[0]` is the product of all `r_inverse` entries; for `i ≥ 1`,
`pos` is the index of the highest set bit of `i`
(`31 - (i as u32).leading_zeros()` in the source, `Nat.log2 i` here;
they agree for `0 < i < 2^32`, and the validated `n = 2^k < 2^32` keeps
every index in that range) and
`s[i] = s[i - 2^pos] * r_square[(k-1) - pos]`.  The source fills an
array in increasing index order, reading only lower indices, which this
recursion reproduces entry by entry. -/
def sEntry (r_inverse r_square : List F) (k : Nat) : Nat → F
  | 0 => r_inverse.foldl (fun v x => v * x) 1
  | i + 1 =>
    let pos := Nat.log2 (i + 1)
    sEntry r_inverse r_square k (i + 1 - 2 ^ pos) * r_square.getD (k - 1 - pos) 0
decreasing_by
  exact Nat.sub_lt (Nat.succ_pos i) (Nat.pos_pow_of_pos _ (by omega))

/-- The tensor weight vector `s` of length `n` built by `verify`. -/
def buildS (n k : Nat) (r_inverse r_square : List F) : List F :=
  (List.range n).map (sEntry r_inverse r_square k)

/-- The input-validation condition of `verify` (the source's `1 <<
self.L_vec.len()` is `2 ^ L_vec.length` on mathematical naturals). -/
def vGuard (arg : InnerProductArgument F G) (n : Nat)
    (U : InnerProductInstance F G) : Prop :=
  U.b_vec.length ≠ n ∨ n ≠ 2 ^ arg.L_vec.length ∨
    arg.L_vec.length ≠ arg.R_vec.length ∨ 32 ≤ arg.L_vec.length

instance (arg : InnerProductArgument F G) (n : Nat) (U : InnerProductInstance F G) :
    Decidable (vGuard arg n U) := by
  unfold vGuard; infer_instance

/-- `InnerProductArgument::verify`.  Returns the final transcript state
together with the outcome (the Rust transcript is a `&mut` borrow, so
its state at exit is observable by the caller).
`reinterpret_commitments_as_ck` is the identity on the underlying
points and its decompression `Result` always succeeds here, since
compressed commitments are identified with group elements. -/
def InnerProductArgument.verify (eng : TE F G σ) (arg : InnerProductArgument F G)
    (ck ck_c : List G) (n : Nat) (U : InnerProductInstance F G) (transcript : σ) :
    σ × PRes Unit :=
  let t0 := eng.absorbProtocolName transcript
  if vGuard arg n U then (t0, .err .InvalidInputLength)
  else
    let t1 := eng.absorbComm .comm_a_vec U.comm_a_vec t0
    let t2 := eng.absorbScalar .c U.c t1
    let rp := eng.challenge .r t2
    let ck_c2 := scaleKey rp.1 ck_c
    let P := U.comm_a_vec + commit ck_c2 [U.c]
    let rpair := replayChallenges eng (arg.L_vec.zip arg.R_vec) rp.2
    let r_square := rpair.1.map (fun x => x * x)
    match batch_invert rpair.1 with
    | .err e => (rpair.2, .err e)
    | .panic => (rpair.2, .panic)
    | .ok r_inverse =>
      let r_inverse_square := r_inverse.map (fun x => x * x)
      let s := buildS n arg.L_vec.length r_inverse r_square
      let ck_hat := [commit ck s]
      match inner_product U.b_vec s with
      | .err e => (rpair.2, .err e)
      | .panic => (rpair.2, .panic)
      | .ok b_hat =>
        if commit (arg.L_vec ++ arg.R_vec ++ [P]) (r_square ++ r_inverse_square ++ [1])
            = commit (ck_hat ++ ck_c2) [arg.a_hat, arg.a_hat * b_hat]
        then (rpair.2, .ok ()) else (rpair.2, .err .InvalidIPA)

/-- Modelled from the spec: `EqPolynomial::evals` of
`spartan/polynomial.rs` — the multilinear Lagrange-basis vector of a
point of length `k`, the tensor product of `(1 - p_i, p_i)` over the
coordinates, of length `2^k`.  Only its length matters to the claims
settled here. -/
def eqEvals : List F → List F
  | [] => [1]
  | p :: ps => (eqEvals ps).map (fun x => (1 - p) * x) ++ (eqEvals ps).map (fun x => p * x)

/-- `EvaluationArgument`: the externally visible wrapper around one
inner-product argument. -/
structure EvaluationArgument (F G : Type) where
  ipa : InnerProductArgument F G
deriving DecidableEq

/-- `EvaluationEngine::prove`: build the instance from the equality
polynomial of `point` and delegate to the IPA. -/
def EvaluationEngine.prove (eng : TE F G σ) (ck ck_s : List G) (comm : G)
    (poly point : List F) (eval : F) (transcript : σ) :
    PRes (EvaluationArgument F G × σ) :=
  match InnerProductArgument.prove eng ck ck_s ⟨comm, eqEvals point, eval⟩ ⟨poly⟩ transcript with
  | .err e => .err e
  | .panic => .panic
  | .ok (ipa, t) => .ok (⟨ipa⟩, t)

/-- The tensor weight vector determined by a challenge list, head
challenge outermost: the left half carries `r⁻¹`, the right half `r` —
the weights the verifier's folds induce on the original coefficients. -/
def tensorS : List F → List F
  | [] => [1]
  | r :: rs => (tensorS rs).map (fun x => r⁻¹ * x) ++ (tensorS rs).map (fun x => r * x)

/-- The naive per-index weight, stated as in the spec:
`s_i = Π_j r_j^{±1}` with exponent `+1` exactly when bit `k-1-j` of `i`
is set. -/
def sNaive (rs : List F) (i : Nat) : F :=
  ∏ j ∈ Finset.range rs.length,
    (if Nat.testBit i (rs.length - 1 - j) then rs.getD j 1 else (rs.getD j 1)⁻¹)

/-- The observable transcript operations, for instantiating the engine
with the free (operation-recording) transcript. -/
inductive TOp (F G : Type) : Type
  | protoName
  | comm (l : Label) (g : G)
  | scalar (l : Label) (x : F)
  | chal (l : Label)
deriving DecidableEq

/-- The free transcript engine: the state is the chronological list of
operations performed; challenges are drawn by an arbitrary function of
the history. -/
def freeTE (ch : List (TOp F G) → F) : TE F G (List (TOp F G)) where
  absorbProtocolName := fun t => t ++ [.protoName]
  absorbComm := fun l g t => t ++ [.comm l g]
  absorbScalar := fun l x t => t ++ [.scalar l x]
  challenge := fun l t => (ch t, t ++ [.chal l])

/-- A trivial stateless engine whose every challenge is `1`; used to
instantiate theorems on concrete inputs. -/
def oneTE (F G : Type) [Field F] : TE F G Unit where
  absorbProtocolName := fun _ => ()
  absorbComm := fun _ _ _ => ()
  absorbScalar := fun _ _ _ => ()
  challenge := fun _ _ => (1, ())

/-- A trivial stateless engine whose every challenge is `0`. -/
def zeroTE (F G : Type) [Field F] : TE F G Unit where
  absorbProtocolName := fun _ => ()
  absorbComm := fun _ _ _ => ()
  absorbScalar := fun _ _ _ => ()
  challenge := fun _ _ => (0, ())

/-- A small prime field used to instantiate theorems on concrete inputs. -/
instance fact13 : Fact (Nat.Prime 13) := ⟨by norm_num⟩

/-! ### Basic facts about the commitment operation -/

theorem commit_nil_key (v : List F) : commit ([] : List G) v = 0 := rfl

theorem commit_nil_scalars (ck : List G) : commit ck ([] : List F) = 0 := by
  cases ck <;> rfl

theorem commit_cons (g : G) (ck : List G) (x : F) (v : List F) :
    commit (g :: ck) (x :: v) = x • g + commit ck v := by
  simp [commit]

theorem commit_append (ck₁ ck₂ : List G) (v₁ v₂ : List F)
    (h : ck₁.length = v₁.length) :
    commit (ck₁ ++ ck₂) (v₁ ++ v₂) = commit ck₁ v₁ + commit ck₂ v₂ := by
  unfold commit
  rw [List.zipWith_append _ _ _ _ _ h, List.sum_append]

theorem commit_singleton (ck : List G) (x : F) :
    commit ck [x] = x • commit ck [(1 : F)] := by
  cases ck with
  | nil => rw [commit_nil_key, commit_nil_key, smul_zero]
  | cons g rest =>
    rw [commit_cons, commit_cons, commit_nil_scalars]
    simp [smul_smul]

/-! ### Correctness of `batch_invert` -/

theorem prefixProducts_length (acc : F) (v : List F) :
    (prefixProducts acc v).length = v.length := by
  induction v generalizing acc with
  | nil => rfl
  | cons x xs ih => simp [prefixProducts, ih]

theorem foldl_mul_eq_prod (acc : F) (v : List F) :
    v.foldl (fun a x => a * x) acc = acc * v.prod := by
  induction v generalizing acc with
  | nil => simp
  | cons x xs ih => simp [List.foldl_cons, ih, mul_assoc]

theorem prefixProducts_concat (acc x : F) (u : List F) :
    prefixProducts acc (u ++ [x]) = prefixProducts acc u ++ [acc * u.prod] := by
  induction u generalizing acc with
  | nil => simp [prefixProducts]
  | cons y ys ih => simp [prefixProducts, ih, mul_assoc]

theorem batchUnwind_spec (v : List F) :
    ∀ p : F, p ≠ 0 → (∀ x ∈ v, x ≠ 0) →
      batchUnwind (p * v.prod)⁻¹ ((v.zip (prefixProducts p v)).reverse)
        = (v.map (fun x => x⁻¹)).reverse := by
  induction v using List.reverseRecOn with
  | nil => intro p _ _; simp [batchUnwind]
  | append_singleton u x ih =>
    intro p hp hnz
    have hx : x ≠ 0 := hnz x (by simp)
    have hu : ∀ y ∈ u, y ≠ 0 := fun y hy => hnz y (by simp [hy])
    have hprod : u.prod ≠ 0 := List.prod_ne_zero (fun h0 => hu 0 h0 rfl)
    have hzip : (u ++ [x]).zip (prefixProducts p (u ++ [x]))
        = u.zip (prefixProducts p u) ++ [(x, p * u.prod)] := by
      rw [prefixProducts_concat, List.zip_append (by rw [prefixProducts_length])]
      rfl
    have hacc : (p * (u ++ [x]).prod)⁻¹ = (p * u.prod)⁻¹ * x⁻¹ := by
      rw [List.prod_append, List.prod_singleton, ← mul_assoc, mul_inv]
    rw [hzip, List.reverse_append, List.reverse_singleton, List.singleton_append, hacc]
    simp only [batchUnwind]
    have h1 : p * u.prod * ((p * u.prod)⁻¹ * x⁻¹) = x⁻¹ := by
      rw [← mul_assoc, mul_inv_cancel₀ (mul_ne_zero hp hprod), one_mul]
    have h2 : (p * u.prod)⁻¹ * x⁻¹ * x = (p * u.prod)⁻¹ := by
      rw [mul_assoc, inv_mul_cancel₀ hx, mul_one]
    rw [h1, h2, ih p hp hu]
    simp

theorem batch_invert_ok (v : List F) (h : ∀ x ∈ v, x ≠ 0) :
    batch_invert v = .ok (v.map (fun x => x⁻¹)) := by
  unfold batch_invert
  have hacc : v.foldl (fun a x => a * x) 1 = v.prod := by
    rw [foldl_mul_eq_prod, one_mul]
  have hprod : v.prod ≠ 0 := List.prod_ne_zero (fun h0 => h 0 h0 rfl)
  rw [hacc, if_neg hprod]
  have := batchUnwind_spec v 1 one_ne_zero h
  rw [one_mul] at this
  rw [this, List.reverse_reverse]

theorem batch_invert_err_iff (v : List F) :
    batch_invert v = .err NovaError.InvalidInputLength ↔ v.prod = 0 := by
  unfold batch_invert
  have hacc : v.foldl (fun a x => a * x) 1 = v.prod := by
    rw [foldl_mul_eq_prod, one_mul]
  rw [hacc]
  by_cases h : v.prod = 0
  · simp [h]
  · simp [h]

theorem batch_invert_ne_panic (v : List F) : batch_invert v ≠ .panic := by
  unfold batch_invert
  by_cases h : List.foldl (fun a x => a * x) 1 v = 0 <;> simp [h]

/-! ### The tensor weight vector: code recursion, tensor form, naive form -/

theorem getD_map_of_lt {α β : Type _} (f : α → β) (l : List α) (j : Nat)
    (h : j < l.length) (d : β) (d' : α) : (l.map f).getD j d = f (l.getD j d') := by
  rw [List.getD_eq_getElem?_getD, List.getD_eq_getElem?_getD, List.getElem?_map,
    List.getElem?_eq_getElem h]
  simp

theorem prod_eq_prod_getD (l : List F) :
    l.prod = ∏ j ∈ Finset.range l.length, l.getD j 1 := by
  induction l with
  | nil => simp
  | cons x xs ih =>
    rw [List.prod_cons, List.length_cons, Finset.prod_range_succ']
    simp only [List.getD_cons_succ, List.getD_cons_zero]
    rw [← ih, mul_comm]

theorem sNaive_cons (r : F) (rs : List F) (i : Nat) :
    sNaive (r :: rs) i = sNaive rs i * (if Nat.testBit i rs.length then r else r⁻¹) := by
  unfold sNaive
  rw [List.length_cons, Finset.prod_range_succ']
  congr 1
  · apply Finset.prod_congr rfl
    intro j hj
    have hidx : rs.length + 1 - 1 - (j + 1) = rs.length - 1 - j := by omega
    rw [hidx, List.getD_cons_succ]

theorem sNaive_low_bits (rs : List F) (k : Nat) (hk : rs.length ≤ k) (m : Nat) :
    sNaive rs (2 ^ k + m) = sNaive rs m := by
  unfold sNaive
  apply Finset.prod_congr rfl
  intro j hj
  have hj' : j < rs.length := Finset.mem_range.1 hj
  have hlt : rs.length - 1 - j < k := by omega
  rw [Nat.testBit_two_pow_add_gt hlt]

theorem tensorS_length (rs : List F) : (tensorS rs).length = 2 ^ rs.length := by
  induction rs with
  | nil => rfl
  | cons r rs ih =>
    simp only [tensorS, List.length_append, List.length_map, ih, List.length_cons]
    ring

theorem tensorS_getElem? (rs : List F) :
    ∀ i, i < 2 ^ rs.length → (tensorS rs)[i]? = some (sNaive rs i) := by
  induction rs with
  | nil =>
    intro i hi
    have : i = 0 := by simpa using hi
    subst this
    simp [tensorS, sNaive]
  | cons r rs ih =>
    intro i hi
    have hmaplen : ((tensorS rs).map (fun x => r⁻¹ * x)).length = 2 ^ rs.length := by
      simp [tensorS_length]
    by_cases h : i < 2 ^ rs.length
    · have hbit : Nat.testBit i rs.length = false := Nat.testBit_lt_two_pow h
      rw [tensorS, List.getElem?_append_left (by rw [hmaplen]; exact h),
        List.getElem?_map, ih i h, sNaive_cons, hbit]
      simp [mul_comm]
    · have hlt2 : i < 2 ^ (rs.length + 1) := by simpa using hi
      have hge : 2 ^ rs.length ≤ i := le_of_not_lt h
      have hsub : i - 2 ^ rs.length < 2 ^ rs.length := by
        have hp : (2 : Nat) ^ (rs.length + 1) = 2 ^ rs.length + 2 ^ rs.length := by ring
        omega
      have hbit : Nat.testBit i rs.length = true := by
        rw [show i = 2 ^ rs.length + (i - 2 ^ rs.length) by omega,
          Nat.testBit_two_pow_add_eq, Nat.testBit_lt_two_pow hsub]
        rfl
      have hlow : sNaive rs i = sNaive rs (i - 2 ^ rs.length) := by
        conv_lhs => rw [show i = 2 ^ rs.length + (i - 2 ^ rs.length) by omega]
        exact sNaive_low_bits rs rs.length le_rfl (i - 2 ^ rs.length)
      rw [tensorS, List.getElem?_append_right (by rw [hmaplen]; exact hge), hmaplen,
        List.getElem?_map, ih (i - 2 ^ rs.length) hsub, sNaive_cons, hbit, hlow]
      simp [mul_comm]

theorem tensorS_getD (rs : List F) (i : Nat) (hi : i < 2 ^ rs.length) :
    (tensorS rs).getD i 0 = sNaive rs i := by
  rw [List.getD_eq_getElem?_getD, tensorS_getElem? rs i hi]
  rfl

theorem sNaive_flip (rs : List F) :
    ∀ i, 1 ≤ i → i < 2 ^ rs.length →
      sNaive rs i = sNaive rs (i - 2 ^ Nat.log2 i)
        * (rs.getD (rs.length - 1 - Nat.log2 i) 1 * rs.getD (rs.length - 1 - Nat.log2 i) 1) := by
  induction rs with
  | nil => intro i h1 h2; simp at h2; omega
  | cons r rs ih =>
    intro i h1 h2
    by_cases hcase : i < 2 ^ rs.length
    · have hpos : Nat.log2 i < rs.length := (Nat.log2_lt (by omega)).2 hcase
      have hb1 : Nat.testBit i rs.length = false := Nat.testBit_lt_two_pow hcase
      have hdec : 2 ^ Nat.log2 i ≤ i := Nat.log2_self_le (by omega)
      have hb2 : Nat.testBit (i - 2 ^ Nat.log2 i) rs.length = false :=
        Nat.testBit_lt_two_pow (lt_of_le_of_lt (Nat.sub_le i _) hcase)
      rw [sNaive_cons, sNaive_cons, hb1, hb2, ih i h1 hcase]
      have hidx : (r :: rs).length - 1 - Nat.log2 i = (rs.length - 1 - Nat.log2 i) + 1 := by
        simp only [List.length_cons]; omega
      rw [hidx, List.getD_cons_succ]
      ring
    · have hge : 2 ^ rs.length ≤ i := le_of_not_lt hcase
      have hlt : i < 2 ^ (rs.length + 1) := by simpa [List.length_cons] using h2
      have hpos : Nat.log2 i = rs.length := by
        have h1' : Nat.log2 i < rs.length + 1 := (Nat.log2_lt (by omega)).2 hlt
        have h2' : rs.length ≤ Nat.log2 i := (Nat.le_log2 (by omega)).2 hge
        omega
      have hsub : i - 2 ^ rs.length < 2 ^ rs.length := by
        have : (2 : Nat) ^ (rs.length + 1) = 2 ^ rs.length + 2 ^ rs.length := by ring
        omega
      have hb1 : Nat.testBit i rs.length = true := by
        rw [show i = 2 ^ rs.length + (i - 2 ^ rs.length) by omega,
          Nat.testBit_two_pow_add_eq, Nat.testBit_lt_two_pow hsub]
        rfl
      have hb2 : Nat.testBit (i - 2 ^ Nat.log2 i) rs.length = false := by
        rw [hpos]; exact Nat.testBit_lt_two_pow (by omega)
      rw [sNaive_cons, sNaive_cons, hb1, hb2, hpos]
      have hlow : sNaive rs i = sNaive rs (i - 2 ^ rs.length) := by
        conv_lhs => rw [show i = 2 ^ rs.length + (i - 2 ^ rs.length) by omega]
        exact sNaive_low_bits rs rs.length le_rfl (i - 2 ^ rs.length)
      have hidx : (r :: rs).length - 1 - rs.length = 0 := by
        simp only [List.length_cons]; omega
      rw [hidx, List.getD_cons_zero, hlow]
      by_cases hr : r = 0
      · simp [hr]
      · field_simp
        ring

theorem sEntry_eq_sNaive (rs : List F) (k : Nat) (hk : rs.length = k) :
    ∀ i, i < 2 ^ k →
      sEntry (rs.map (fun x => x⁻¹)) (rs.map (fun x => x * x)) k i = sNaive rs i := by
  intro i
  induction i using Nat.strong_induction_on with
  | _ i IH =>
    intro hi
    match i with
    | 0 =>
      rw [sEntry]
      rw [foldl_mul_eq_prod, one_mul, prod_eq_prod_getD, List.length_map]
      unfold sNaive
      rw [hk]
      apply Finset.prod_congr rfl
      intro j hj
      have hj' : j < rs.length := by rw [hk]; exact Finset.mem_range.1 hj
      rw [Nat.zero_testBit, if_neg (by simp), getD_map_of_lt _ _ _ hj' _ 1]
    | i + 1 =>
      rw [sEntry]
      have hne : i + 1 ≠ 0 := by omega
      have hklen : 1 ≤ k := by
        by_contra hc
        have : k = 0 := by omega
        subst this
        simp at hi
      have hpos : Nat.log2 (i + 1) < k := (Nat.log2_lt hne).2 hi
      have hdec : 2 ^ Nat.log2 (i + 1) ≤ i + 1 := Nat.log2_self_le hne
      have h2pos : 0 < 2 ^ Nat.log2 (i + 1) := Nat.pos_pow_of_pos _ (by omega)
      have hidx : k - 1 - Nat.log2 (i + 1) < rs.length := by rw [hk]; omega
      rw [getD_map_of_lt _ _ _ hidx _ 1,
        IH (i + 1 - 2 ^ Nat.log2 (i + 1)) (by omega) (by omega)]
      rw [sNaive_flip rs (i + 1) (by omega) (by rw [hk]; exact hi), hk]

theorem buildS_getD (n k : Nat) (rinv rsq : List F) (i : Nat) (hi : i < n) :
    (buildS n k rinv rsq).getD i 0 = sEntry rinv rsq k i := by
  unfold buildS
  have hlen : i < (List.range n).length := by simpa using hi
  rw [getD_map_of_lt _ _ _ hlen _ 0, List.getD_eq_getElem?_getD,
    List.getElem?_range hi]
  rfl

theorem buildS_length (n k : Nat) (rinv rsq : List F) :
    (buildS n k rinv rsq).length = n := by
  simp [buildS]

theorem buildS_eq_tensorS (rs : List F) :
    buildS (2 ^ rs.length) rs.length (rs.map (fun x => x⁻¹)) (rs.map (fun x => x * x))
      = tensorS rs := by
  apply List.ext_getElem
  · rw [buildS_length, tensorS_length]
  · intro i h1 h2
    have hi : i < 2 ^ rs.length := by rw [buildS_length] at h1; exact h1
    have e1 : (buildS (2 ^ rs.length) rs.length (rs.map (fun x => x⁻¹))
        (rs.map (fun x => x * x))).getD i 0 = sNaive rs i := by
      rw [buildS_getD _ _ _ _ i hi, sEntry_eq_sNaive rs rs.length rfl i hi]
    have e2 : (tensorS rs).getD i 0 = sNaive rs i := tensorS_getD rs i hi
    rw [List.getD_eq_getElem?_getD, List.getElem?_eq_getElem h1] at e1
    rw [List.getD_eq_getElem?_getD, List.getElem?_eq_getElem h2] at e2
    simp only [Option.getD_some] at e1 e2
    exact e1.trans e2.symm

/-! ### Claims C4 and C7 -/

/-- Claim C7: the prefix-product/unwind routine `batch_invert` fails — with
the same `InvalidInputLength` error kind used for shape/length mismatches —
if and only if the product of all entries of `v` is zero, equivalently some
entry is zero; and when it succeeds it returns exactly the elementwise
multiplicative inverses of `v`. -/
theorem batch_invert_full_spec (v : List F) :
    (batch_invert v = .err NovaError.InvalidInputLength ↔ v.prod = 0) ∧
    (v.prod = 0 ↔ ∃ x ∈ v, x = 0) ∧
    ((∀ x ∈ v, x ≠ 0) → batch_invert v = .ok (v.map (fun x => x⁻¹))) := by
  refine ⟨batch_invert_err_iff v, ?_, batch_invert_ok v⟩
  rw [List.prod_eq_zero_iff]
  constructor
  · intro h
    exact ⟨0, h, rfl⟩
  · rintro ⟨x, hx, rfl⟩
    exact hx

/-- Witness for C7: on the concrete nonzero vector `[2, 3]` over `ZMod 13`,
`batch_invert` succeeds with the elementwise inverses. -/
theorem batch_invert_full_spec_witness :
    batch_invert [(2 : ZMod 13), 3] = .ok ([(2 : ZMod 13), 3].map (fun x => x⁻¹)) :=
  (batch_invert_full_spec [(2 : ZMod 13), 3]).2.2 (by decide)

/-- Claim C4: for `k < 32`, `n = 2^k` and `k` nonzero round challenges
`r_0 .. r_{k-1}`, the tensor weight vector `s` built by `verify` from the
batch-inverted challenges and their squares (`s[0] = Π r_j⁻¹`;
`s[i] = s[i - 2^pos] * r_square[(k-1) - pos]` with `pos` the index of the
highest set bit of `i`) satisfies, at every index `i < n`,
`s[i] = Π_j r_j^{e_j}` with `e_j = +1` exactly when bit `k-1-j` of `i` is
set and `e_j = -1` otherwise. -/
theorem verify_tensor_eq_naive_weights (k : Nat) (rs : List F)
    (hk : rs.length = k) (hk32 : k < 32) (hnz : ∀ x ∈ rs, x ≠ 0)
    (i : Nat) (hi : i < 2 ^ k) :
    (buildS (2 ^ k) k (rs.map (fun x => x⁻¹)) (rs.map (fun x => x * x))).getD i 0
      = ∏ j ∈ Finset.range k,
          (if Nat.testBit i (k - 1 - j) then rs.getD j 1 else (rs.getD j 1)⁻¹) := by
  subst hk
  rw [buildS_getD _ _ _ _ i hi, sEntry_eq_sNaive rs rs.length rfl i hi]
  rfl

/-! ### Pointwise indexing helpers -/

theorem getD_zipWith_of_lt {α β γ : Type _} (f : α → β → γ) :
    ∀ (u : List α) (v : List β) (i : Nat), i < u.length → i < v.length →
      ∀ (d : γ) (du : α) (dv : β),
        (List.zipWith f u v).getD i d = f (u.getD i du) (v.getD i dv) := by
  intro u
  induction u with
  | nil => intro v i hu; simp at hu
  | cons x xs ih =>
    intro v i hu hv d du dv
    cases v with
    | nil => simp at hv
    | cons y ys =>
      cases i with
      | zero => simp
      | succ j =>
        simp only [List.zipWith_cons_cons, List.getD_cons_succ]
        exact ih ys j (by simpa using hu) (by simpa using hv) d du dv

theorem getD_take_of_lt {α : Type _} (l : List α) (m i : Nat) (h : i < m) (d : α) :
    (l.take m).getD i d = l.getD i d := by
  rw [List.getD_eq_getElem?_getD, List.getD_eq_getElem?_getD, List.getElem?_take_of_lt h]

theorem getD_drop {α : Type _} (l : List α) (m i : Nat) (d : α) :
    (l.drop m).getD i d = l.getD (m + i) d := by
  rw [List.getD_eq_getElem?_getD, List.getD_eq_getElem?_getD, List.getElem?_drop]

/-- Witness for C4: concrete instance `k = 2`, challenges `[2, 3]` over
`ZMod 13`, index `i = 1`. -/
theorem verify_tensor_eq_naive_weights_witness :
    (buildS (2 ^ 2) 2 ([(2 : ZMod 13), 3].map (fun x => x⁻¹))
        ([(2 : ZMod 13), 3].map (fun x => x * x))).getD 1 0
      = ∏ j ∈ Finset.range 2,
          (if Nat.testBit 1 (2 - 1 - j) then [(2 : ZMod 13), 3].getD j 1
           else ([(2 : ZMod 13), 3].getD j 1)⁻¹) :=
  verify_tensor_eq_naive_weights 2 [(2 : ZMod 13), 3] rfl (by norm_num)
    (by decide) 1 (by norm_num)

/-- Claim C3: in every round over vectors `a`, `b` of even length `n` and key
`ck`, with a nonzero round challenge `r` drawn after absorbing `L` and `R`:
the cross commitments are `L = Commit(ck_R ++ ck_c, a_left ++ [c_L])` and
`R = Commit(ck_L ++ ck_c, a_right ++ [c_R])` with `c_L = <a_left, b_right>`
and `c_R = <a_right, b_left>`, and the folded entries are
`a'_i = a_left_i * r + r⁻¹ * a_right_i`, `b'_i = b_left_i * r⁻¹ + r * b_right_i`
and `key'_i = r⁻¹ • ck_L_i + r • ck_R_i` — the inverse placement swapped
between `a` and `b`. -/
theorem prove_round_folding (eng : TE F G σ) (ck_c : List G) (n : Nat)
    (a b : List F) (ck : List G) (st : σ)
    (ha : a.length = n) (hb : b.length = n) (hck : ck.length = n)
    (hev : n % 2 = 0) (r : F) (st3 : σ)
    (hch : eng.challenge .challenge_r
        (eng.absorbComm .R
          (commit (ck.take (n / 2) ++ ck_c)
            (a.drop (n / 2) ++ [dotProd (a.drop (n / 2)) (b.take (n / 2))]))
          (eng.absorbComm .L
            (commit (ck.drop (n / 2) ++ ck_c)
              (a.take (n / 2) ++ [dotProd (a.take (n / 2)) (b.drop (n / 2))])) st))
      = (r, st3))
    (hr : r ≠ 0) :
    prove_inner eng ck_c a b ck st = .ok
      ((commit (ck.drop (n / 2) ++ ck_c)
          (a.take (n / 2) ++ [dotProd (a.take (n / 2)) (b.drop (n / 2))]),
        commit (ck.take (n / 2) ++ ck_c)
          (a.drop (n / 2) ++ [dotProd (a.drop (n / 2)) (b.take (n / 2))]),
        List.zipWith (fun aL aR => aL * r + r⁻¹ * aR) (a.take (n / 2)) (a.drop (n / 2)),
        List.zipWith (fun bL bR => bL * r⁻¹ + r * bR) (b.take (n / 2)) (b.drop (n / 2)),
        foldKey r⁻¹ r ck), st3) ∧
    (∀ i, i < n / 2 →
      (List.zipWith (fun aL aR => aL * r + r⁻¹ * aR) (a.take (n / 2))
          (a.drop (n / 2))).getD i 0
        = a.getD i 0 * r + r⁻¹ * a.getD (n / 2 + i) 0) ∧
    (∀ i, i < n / 2 →
      (List.zipWith (fun bL bR => bL * r⁻¹ + r * bR) (b.take (n / 2))
          (b.drop (n / 2))).getD i 0
        = b.getD i 0 * r⁻¹ + r * b.getD (n / 2 + i) 0) ∧
    (∀ i, i < n / 2 →
      (foldKey r⁻¹ r ck).getD i 0 = r⁻¹ • ck.getD i 0 + r • ck.getD (n / 2 + i) 0) := by
  subst ha
  refine ⟨?_, ?_, ?_, ?_⟩
  · simp only [prove_inner]
    have ht : (a.take (a.length / 2)).length = (b.drop (a.length / 2)).length := by
      simp [hb]
      omega
    have ht2 : (a.drop (a.length / 2)).length = (b.take (a.length / 2)).length := by
      simp [hb]
      omega
    rw [inner_product, if_pos ht, inner_product, if_pos ht2]
    dsimp only
    rw [hch]
    dsimp only
    rw [invertUnwrap, if_neg hr]
  · intro i hi
    rw [getD_zipWith_of_lt _ _ _ i (by simp; omega) (by simp; omega) 0 0 0,
      getD_take_of_lt _ _ _ hi, getD_drop]
  · intro i hi
    rw [getD_zipWith_of_lt _ _ _ i (by simp [hb]; omega) (by simp [hb]; omega) 0 0 0,
      getD_take_of_lt _ _ _ hi, getD_drop]
  · intro i hi
    rw [foldKey, hck, getD_zipWith_of_lt _ _ _ i (by simp [hck]; omega)
      (by simp [hck]; omega) 0 0 0, getD_take_of_lt _ _ _ hi, getD_drop]

/-- Witness for C3: one concrete round over `ZMod 13` with `n = 2`,
`a = [1, 2]`, `b = [3, 4]`, `ck = [5, 6]`, `ck_c = [7]`, the constant-`1`
challenge engine, `r = 1`. -/
theorem prove_round_folding_witness :
    prove_inner (oneTE (ZMod 13) (ZMod 13)) [7] [1, 2] [3, 4] [5, 6] () = .ok
      ((commit (List.drop (2 / 2) [(5 : ZMod 13), 6] ++ [7])
          (List.take (2 / 2) [(1 : ZMod 13), 2] ++
            [dotProd (List.take (2 / 2) [(1 : ZMod 13), 2])
              (List.drop (2 / 2) [(3 : ZMod 13), 4])]),
        commit (List.take (2 / 2) [(5 : ZMod 13), 6] ++ [7])
          (List.drop (2 / 2) [(1 : ZMod 13), 2] ++
            [dotProd (List.drop (2 / 2) [(1 : ZMod 13), 2])
              (List.take (2 / 2) [(3 : ZMod 13), 4])]),
        List.zipWith (fun aL aR => aL * 1 + (1 : ZMod 13)⁻¹ * aR)
          (List.take (2 / 2) [(1 : ZMod 13), 2]) (List.drop (2 / 2) [(1 : ZMod 13), 2]),
        List.zipWith (fun bL bR => bL * (1 : ZMod 13)⁻¹ + 1 * bR)
          (List.take (2 / 2) [(3 : ZMod 13), 4]) (List.drop (2 / 2) [(3 : ZMod 13), 4]),
        foldKey (1 : ZMod 13)⁻¹ 1 [5, 6]), ()) ∧
    (∀ i, i < 2 / 2 →
      (List.zipWith (fun aL aR => aL * 1 + (1 : ZMod 13)⁻¹ * aR)
          (List.take (2 / 2) [(1 : ZMod 13), 2]) (List.drop (2 / 2) [(1 : ZMod 13), 2])).getD i 0
        = [(1 : ZMod 13), 2].getD i 0 * 1 + (1 : ZMod 13)⁻¹ * [(1 : ZMod 13), 2].getD (2 / 2 + i) 0) ∧
    (∀ i, i < 2 / 2 →
      (List.zipWith (fun bL bR => bL * (1 : ZMod 13)⁻¹ + 1 * bR)
          (List.take (2 / 2) [(3 : ZMod 13), 4]) (List.drop (2 / 2) [(3 : ZMod 13), 4])).getD i 0
        = [(3 : ZMod 13), 4].getD i 0 * (1 : ZMod 13)⁻¹ + 1 * [(3 : ZMod 13), 4].getD (2 / 2 + i) 0) ∧
    (∀ i, i < 2 / 2 →
      (foldKey (1 : ZMod 13)⁻¹ 1 [(5 : ZMod 13), 6]).getD i 0
        = (1 : ZMod 13)⁻¹ • [(5 : ZMod 13), 6].getD i 0 + (1 : ZMod 13) • [(5 : ZMod 13), 6].getD (2 / 2 + i) 0) :=
  prove_round_folding (oneTE (ZMod 13) (ZMod 13)) [7] 2 [1, 2] [3, 4] [5, 6] ()
    rfl rfl rfl (by norm_num) 1 () rfl (by decide)

/-! ### Error paths of `prove` -/

theorem inner_product_ne_err (a b : List F) (e : NovaError) :
    inner_product a b ≠ .err e := by
  unfold inner_product
  split <;> simp

theorem invertUnwrap_ne_err (x : F) (e : NovaError) : invertUnwrap x ≠ .err e := by
  unfold invertUnwrap
  split <;> simp

theorem prove_inner_ne_err (eng : TE F G σ) (ck_c : List G) (a b : List F)
    (ck : List G) (st : σ) (e : NovaError) :
    prove_inner eng ck_c a b ck st ≠ .err e := by
  simp only [prove_inner]
  split
  · rename_i heq
    exact absurd heq (inner_product_ne_err _ _ _)
  · simp
  · split
    · rename_i heq
      exact absurd heq (inner_product_ne_err _ _ _)
    · simp
    · split
      · rename_i heq
        exact absurd heq (invertUnwrap_ne_err _ _)
      · simp
      · simp

theorem proveLoop_ne_err (eng : TE F G σ) (ck_c : List G) :
    ∀ (k : Nat) (a b : List F) (ck : List G) (st : σ) (e : NovaError),
      proveLoop eng ck_c k a b ck st ≠ .err e := by
  intro k
  induction k with
  | zero => intro a b ck st e; simp [proveLoop]
  | succ k ih =>
    intro a b ck st e
    simp only [proveLoop]
    split
    · rename_i heq
      exact absurd heq (prove_inner_ne_err _ _ _ _ _ _ _)
    · simp
    · split
      · rename_i heq
        exact absurd heq (ih _ _ _ _ _)
      · simp
      · simp

theorem eqEvals_length (p : List F) : (eqEvals p).length = 2 ^ p.length := by
  induction p with
  | nil => rfl
  | cons x xs ih =>
    simp only [eqEvals, List.length_append, List.length_map, ih, List.length_cons]
    ring

theorem ipa_prove_err_iff (eng : TE F G σ) (ck ck_c : List G)
    (U : InnerProductInstance F G) (W : InnerProductWitness F) (st : σ) :
    InnerProductArgument.prove eng ck ck_c U W st = .err NovaError.InvalidInputLength
      ↔ U.b_vec.length ≠ W.a_vec.length := by
  by_cases hlen : U.b_vec.length = W.a_vec.length
  · constructor
    · intro h
      exfalso
      simp only [InnerProductArgument.prove, if_neg (not_not_intro hlen)] at h
      split at h
      · rename_i heq
        exact absurd heq (proveLoop_ne_err _ _ _ _ _ _ _ _)
      · simp at h
      · split at h <;> simp at h
    · intro h
      exact absurd hlen h
  · constructor
    · intro _
      exact hlen
    · intro _
      simp only [InnerProductArgument.prove, if_pos hlen]

/-- Claim C6: `InnerProductArgument::prove` fails with the shape/length error
iff `|U.b_vec| ≠ |W.a_vec|`; consequently `EvaluationEngine::prove`, whose
`b_vec` is the length-`2^{|point|}` equality-polynomial evaluation vector,
fails with that error iff `|poly| ≠ 2^{|point|}`. -/
theorem prove_shape_error_iff (eng : TE F G σ) (ck ck_c ck_s : List G)
    (U : InnerProductInstance F G) (W : InnerProductWitness F)
    (comm : G) (poly point : List F) (eval : F) (st : σ) :
    (InnerProductArgument.prove eng ck ck_c U W st = .err NovaError.InvalidInputLength
      ↔ U.b_vec.length ≠ W.a_vec.length) ∧
    (EvaluationEngine.prove eng ck ck_s comm poly point eval st
        = .err NovaError.InvalidInputLength
      ↔ poly.length ≠ 2 ^ point.length) := by
  refine ⟨ipa_prove_err_iff eng ck ck_c U W st, ?_⟩
  have hinner : EvaluationEngine.prove eng ck ck_s comm poly point eval st
        = .err NovaError.InvalidInputLength
      ↔ InnerProductArgument.prove eng ck ck_s ⟨comm, eqEvals point, eval⟩ ⟨poly⟩ st
        = .err NovaError.InvalidInputLength := by
    simp only [EvaluationEngine.prove]
    split
    · rename_i heq
      simp [heq]
    · rename_i heq
      simp [heq]
    · rename_i heq
      simp [heq]
  rw [hinner, ipa_prove_err_iff]
  show (eqEvals point).length ≠ poly.length ↔ _
  rw [eqEvals_length]
  omega

/-- Witness for C6: mismatched lengths over `ZMod 13` produce the shape
error at both levels. -/
theorem prove_shape_error_iff_witness :
    (InnerProductArgument.prove (oneTE (ZMod 13) (ZMod 13)) [1] [2]
        ⟨3, [1, 2], 4⟩ ⟨[5]⟩ () = .err NovaError.InvalidInputLength
      ↔ ([(1 : ZMod 13), 2].length ≠ [(5 : ZMod 13)].length)) ∧
    (EvaluationEngine.prove (oneTE (ZMod 13) (ZMod 13)) [1] [2] 3 [5] [6] 4 ()
        = .err NovaError.InvalidInputLength
      ↔ [(5 : ZMod 13)].length ≠ 2 ^ [(6 : ZMod 13)].length) :=
  prove_shape_error_iff (oneTE (ZMod 13) (ZMod 13)) [1] [2] [2]
    ⟨3, [1, 2], 4⟩ ⟨[5]⟩ 3 [5] [6] 4 ()

/-! ### Input validation of `verify` -/

theorem verify_guard_rejects (eng : TE F G σ) (arg : InnerProductArgument F G)
    (ck ck_c : List G) (n : Nat) (U : InnerProductInstance F G) (st : σ)
    (hg : vGuard arg n U) :
    InnerProductArgument.verify eng arg ck ck_c n U st
      = (eng.absorbProtocolName st, .err NovaError.InvalidInputLength) := by
  simp only [InnerProductArgument.verify, if_pos hg]

theorem verify_fst_of_not_guard (eng : TE F G σ) (arg : InnerProductArgument F G)
    (ck ck_c : List G) (n : Nat) (U : InnerProductInstance F G) (st : σ)
    (hg : ¬ vGuard arg n U) :
    (InnerProductArgument.verify eng arg ck ck_c n U st).1
      = (replayChallenges eng (arg.L_vec.zip arg.R_vec)
          (eng.challenge .r (eng.absorbScalar .c U.c
            (eng.absorbComm .comm_a_vec U.comm_a_vec
              (eng.absorbProtocolName st)))).2).2 := by
  simp only [InnerProductArgument.verify, if_neg hg]
  split
  · rfl
  · rfl
  · split
    · rfl
    · rfl
    · split <;> rfl

theorem freeTE_absorbProtocolName (ch : List (TOp F G) → F) (t : List (TOp F G)) :
    (freeTE ch).absorbProtocolName t = t ++ [TOp.protoName] := rfl

theorem freeTE_absorbComm (ch : List (TOp F G) → F) (l : Label) (g : G)
    (t : List (TOp F G)) : (freeTE ch).absorbComm l g t = t ++ [TOp.comm l g] := rfl

theorem freeTE_absorbScalar (ch : List (TOp F G) → F) (l : Label) (x : F)
    (t : List (TOp F G)) : (freeTE ch).absorbScalar l x t = t ++ [TOp.scalar l x] := rfl

theorem freeTE_challenge (ch : List (TOp F G) → F) (l : Label) (t : List (TOp F G)) :
    (freeTE ch).challenge l t = (ch t, t ++ [TOp.chal l]) := rfl

theorem replayChallenges_free_state (ch : List (TOp F G) → F) :
    ∀ (pairs : List (G × G)) (t : List (TOp F G)),
      ∃ tail, (replayChallenges (freeTE ch) pairs t).2 = t ++ tail := by
  intro pairs
  induction pairs with
  | nil => intro t; exact ⟨[], by simp [replayChallenges]⟩
  | cons p rest ih =>
    intro t
    obtain ⟨Lc, Rc⟩ := p
    obtain ⟨tail, htail⟩ := ih
      (t ++ [TOp.comm .L Lc] ++ [TOp.comm .R Rc] ++ [TOp.chal .challenge_r])
    refine ⟨[TOp.comm .L Lc] ++ [TOp.comm .R Rc] ++ [TOp.chal .challenge_r] ++ tail, ?_⟩
    simp only [replayChallenges, freeTE_absorbComm, freeTE_challenge]
    rw [htail]
    simp

/-- Claim C5: `verify` returns the shape/length error before absorbing the
instance (for the free operation-recording transcript: with only the
protocol-name absorption performed) if and only if one of the four
validation conditions holds: `|U.b_vec| ≠ n`, `n ≠ 2^{|L_vec|}`,
`|L_vec| ≠ |R_vec|`, or `|L_vec| ≥ 32`; and whenever one of them holds the
rejection is independent of the engine, the keys, and everything else in
the argument — in particular any argument with `|L_vec| ≥ 32` is
rejected. -/
theorem verify_input_validation :
    (∀ (eng : TE F G σ) (arg : InnerProductArgument F G) (ck ck_c : List G)
        (n : Nat) (U : InnerProductInstance F G) (st : σ),
      (U.b_vec.length ≠ n ∨ n ≠ 2 ^ arg.L_vec.length ∨
          arg.L_vec.length ≠ arg.R_vec.length ∨ 32 ≤ arg.L_vec.length) →
        InnerProductArgument.verify eng arg ck ck_c n U st
          = (eng.absorbProtocolName st, .err NovaError.InvalidInputLength)) ∧
    (∀ (ch : List (TOp F G) → F) (arg : InnerProductArgument F G)
        (ck ck_c : List G) (n : Nat) (U : InnerProductInstance F G),
      InnerProductArgument.verify (freeTE ch) arg ck ck_c n U []
          = ([TOp.protoName], .err NovaError.InvalidInputLength)
        ↔ (U.b_vec.length ≠ n ∨ n ≠ 2 ^ arg.L_vec.length ∨
            arg.L_vec.length ≠ arg.R_vec.length ∨ 32 ≤ arg.L_vec.length)) := by
  constructor
  · intro eng arg ck ck_c n U st hg
    exact verify_guard_rejects eng arg ck ck_c n U st hg
  · intro ch arg ck ck_c n U
    constructor
    · intro h
      by_contra hg
      have hfst := verify_fst_of_not_guard (freeTE ch) arg ck ck_c n U [] hg
      rw [h] at hfst
      have hstate : ((freeTE ch).challenge Label.r
          ((freeTE ch).absorbScalar Label.c U.c
            ((freeTE ch).absorbComm Label.comm_a_vec U.comm_a_vec
              ((freeTE ch).absorbProtocolName ([] : List (TOp F G)))))).2
          = [TOp.protoName, TOp.comm Label.comm_a_vec U.comm_a_vec,
              TOp.scalar Label.c U.c, TOp.chal Label.r] := rfl
      rw [hstate] at hfst
      obtain ⟨tail, htail⟩ := replayChallenges_free_state ch (arg.L_vec.zip arg.R_vec)
        [TOp.protoName, TOp.comm Label.comm_a_vec U.comm_a_vec,
          TOp.scalar Label.c U.c, TOp.chal Label.r]
      rw [htail] at hfst
      have hlen := congrArg List.length hfst
      simp at hlen
    · intro hg
      exact verify_guard_rejects (freeTE ch) arg ck ck_c n U [] hg

/-- Witness for C5: a concrete empty-round argument with `|b_vec| ≠ n` is
rejected with only the protocol name absorbed, and the equivalence holds at
that instance. -/
theorem verify_input_validation_witness :
    (InnerProductArgument.verify (oneTE (ZMod 13) (ZMod 13))
        (⟨[], [], 5⟩ : InnerProductArgument (ZMod 13) (ZMod 13))
        ([1] : List (ZMod 13)) ([2] : List (ZMod 13)) 2
        (⟨3, [4], 6⟩ : InnerProductInstance (ZMod 13) (ZMod 13)) ()
      = ((), .err NovaError.InvalidInputLength)) ∧
    (InnerProductArgument.verify (freeTE (fun _ => (1 : ZMod 13)))
        (⟨[], [], 5⟩ : InnerProductArgument (ZMod 13) (ZMod 13))
        ([1] : List (ZMod 13)) ([2] : List (ZMod 13)) 2
        (⟨3, [4], 6⟩ : InnerProductInstance (ZMod 13) (ZMod 13)) []
          = ([TOp.protoName], .err NovaError.InvalidInputLength)
      ↔ (([(4 : ZMod 13)].length ≠ 2) ∨ (2 ≠ 2 ^ ([] : List (ZMod 13)).length) ∨
          (([] : List (ZMod 13)).length ≠ ([] : List (ZMod 13)).length) ∨
          (32 ≤ ([] : List (ZMod 13)).length))) := by
  refine ⟨?_, ?_⟩
  · exact (@verify_input_validation (ZMod 13) (ZMod 13) Unit _ _ _ _ _).1
      (oneTE (ZMod 13) (ZMod 13)) ⟨[], [], 5⟩ [1] [2] 2 ⟨3, [4], 6⟩ ()
      (by right; left; decide)
  · exact (@verify_input_validation (ZMod 13) (ZMod 13)
      (List (TOp (ZMod 13) (ZMod 13))) _ _ _ _ _).2
      (fun _ => (1 : ZMod 13)) ⟨[], [], 5⟩ [1] [2] 2 ⟨3, [4], 6⟩

/-- Claim C2: when all shape checks pass (and the replayed round challenges
are nonzero, so batch inversion succeeds), `verify` returns `Ok` if and only
if `P_hat = Commit(ck_hat ++ ck_c, [a_hat, a_hat * b_hat])`, and when that
final equality fails the returned error is the distinct verification-failure
kind `InvalidIPA`, not the shape/length kind. -/
theorem verify_accept_iff_final_check (eng : TE F G σ)
    (arg : InnerProductArgument F G) (ck ck_c : List G) (n : Nat)
    (U : InnerProductInstance F G) (st : σ)
    (hg : ¬ vGuard arg n U) (rs : List F) (st2 : σ)
    (hrepl : replayChallenges eng (arg.L_vec.zip arg.R_vec)
        (eng.challenge .r (eng.absorbScalar .c U.c
          (eng.absorbComm .comm_a_vec U.comm_a_vec
            (eng.absorbProtocolName st)))).2 = (rs, st2))
    (hnz : ∀ x ∈ rs, x ≠ 0) :
    InnerProductArgument.verify eng arg ck ck_c n U st
      = (st2,
        if commit (arg.L_vec ++ arg.R_vec ++
              [U.comm_a_vec + commit (scaleKey (eng.challenge .r (eng.absorbScalar .c U.c
                  (eng.absorbComm .comm_a_vec U.comm_a_vec
                    (eng.absorbProtocolName st)))).1 ck_c) [U.c]])
            (rs.map (fun x => x * x) ++ (rs.map (fun x => x⁻¹)).map (fun x => x * x) ++ [1])
          = commit
              ([commit ck (buildS n arg.L_vec.length (rs.map (fun x => x⁻¹))
                  (rs.map (fun x => x * x)))]
                ++ scaleKey (eng.challenge .r (eng.absorbScalar .c U.c
                    (eng.absorbComm .comm_a_vec U.comm_a_vec
                      (eng.absorbProtocolName st)))).1 ck_c)
              [arg.a_hat, arg.a_hat *
                dotProd U.b_vec (buildS n arg.L_vec.length (rs.map (fun x => x⁻¹))
                  (rs.map (fun x => x * x)))]
        then .ok () else .err NovaError.InvalidIPA)
      ∧ NovaError.InvalidIPA ≠ NovaError.InvalidInputLength := by
  refine ⟨?_, by simp⟩
  have hbv : U.b_vec.length = n := by
    unfold vGuard at hg
    push_neg at hg
    exact hg.1
  simp only [InnerProductArgument.verify, if_neg hg]
  rw [hrepl]
  dsimp only
  rw [batch_invert_ok rs hnz]
  dsimp only
  rw [inner_product, if_pos (by rw [hbv, buildS_length])]
  dsimp only
  split <;> rfl

/-- Witness for C2: on a concrete zero-round instance over `ZMod 13`, the
outcome of `verify` is either acceptance or the `InvalidIPA` error. -/
theorem verify_accept_iff_final_check_witness :
    (InnerProductArgument.verify (oneTE (ZMod 13) (ZMod 13))
        (⟨[], [], 5⟩ : InnerProductArgument (ZMod 13) (ZMod 13))
        ([1] : List (ZMod 13)) ([2] : List (ZMod 13)) 1
        (⟨3, [4], 6⟩ : InnerProductInstance (ZMod 13) (ZMod 13)) ()).2 = .ok ()
    ∨ (InnerProductArgument.verify (oneTE (ZMod 13) (ZMod 13))
        (⟨[], [], 5⟩ : InnerProductArgument (ZMod 13) (ZMod 13))
        ([1] : List (ZMod 13)) ([2] : List (ZMod 13)) 1
        (⟨3, [4], 6⟩ : InnerProductInstance (ZMod 13) (ZMod 13)) ()).2
      = .err NovaError.InvalidIPA := by
  have h := verify_accept_iff_final_check (oneTE (ZMod 13) (ZMod 13))
    (⟨[], [], 5⟩ : InnerProductArgument (ZMod 13) (ZMod 13))
    ([1] : List (ZMod 13)) ([2] : List (ZMod 13)) 1
    (⟨3, [4], 6⟩ : InnerProductInstance (ZMod 13) (ZMod 13)) ()
    (by decide) [] () rfl (by simp)
  rw [h.1]
  dsimp only
  split
  · exact Or.inl rfl
  · exact Or.inr rfl

/-! ### Bilinear expansions of the commitment over folded keys and vectors -/

theorem dotProd_eq_commit (a b : List F) : dotProd a b = commit b a := by
  induction a generalizing b with
  | nil => cases b <;> simp [dotProd, commit]
  | cons x xs ih =>
    cases b with
    | nil => simp [dotProd, commit]
    | cons y ys =>
      have h := ih ys
      simp only [dotProd, commit, List.zipWith_cons_cons, List.sum_cons, smul_eq_mul] at h ⊢
      rw [h, mul_comm]

theorem commit_map_smul (t : F) :
    ∀ (ck : List G) (v : List F),
      commit ck (v.map (fun x => t * x)) = t • commit ck v := by
  intro ck
  induction ck with
  | nil => intro v; simp [commit]
  | cons g rest ih =>
    intro v
    cases v with
    | nil => simp [commit]
    | cons x xs =>
      simp only [List.map_cons, commit, List.zipWith_cons_cons, List.sum_cons]
      have := ih xs
      simp only [commit] at this
      rw [this, smul_add, mul_smul]

theorem commit_zipWith_keys (x y : F) :
    ∀ (u w : List G) (t : List F), u.length = w.length →
      commit (List.zipWith (fun g h => x • g + y • h) u w) t
        = x • commit u t + y • commit w t := by
  intro u
  induction u with
  | nil =>
    intro w t h
    have hw : w = [] := by simpa using h.symm
    subst hw
    simp [commit]
  | cons g u' ih =>
    intro w t h
    cases w with
    | nil => simp at h
    | cons hd w' =>
      cases t with
      | nil => simp [commit]
      | cons s t' =>
        simp only [List.zipWith_cons_cons, commit, List.sum_cons]
        have hrec := ih w' t' (by simpa using h)
        simp only [commit] at hrec
        rw [hrec]
        module

theorem commit_fold_expand (x y c d : F) :
    ∀ (u w : List G) (p q : List F),
      u.length = w.length → u.length = p.length → w.length = q.length →
      commit (List.zipWith (fun g h => x • g + y • h) u w)
          (List.zipWith (fun s t => c * s + d * t) p q)
        = (c * x) • commit u p + (c * y) • commit w p
          + (d * x) • commit u q + (d * y) • commit w q := by
  intro u
  induction u with
  | nil =>
    intro w p q h1 h2 h3
    have hw : w = [] := by simpa using h1.symm
    have hp : p = [] := by simpa using h2.symm
    subst hw
    subst hp
    simp [commit]
  | cons g u' ih =>
    intro w p q h1 h2 h3
    cases w with
    | nil => simp at h1
    | cons hd w' =>
      cases p with
      | nil => simp at h2
      | cons s p' =>
        cases q with
        | nil => simp at h3
        | cons t q' =>
          simp only [List.zipWith_cons_cons, commit, List.sum_cons]
          have hrec := ih w' p' q' (by simpa using h1) (by simpa using h2) (by simpa using h3)
          simp only [commit] at hrec
          rw [hrec]
          module

theorem commit_foldKey_tensor (x y : F) (ck : List G) (t : List F)
    (hck : ck.length = 2 * t.length) :
    commit (foldKey x y ck) t
      = commit ck (t.map (fun z => x * z) ++ t.map (fun z => y * z)) := by
  have htake : (ck.take (ck.length / 2)).length = t.length := by
    simp
    omega
  have hdrop : (ck.drop (ck.length / 2)).length = t.length := by
    simp
    omega
  rw [foldKey, commit_zipWith_keys x y _ _ t (by rw [htake, hdrop])]
  conv_rhs => rw [show ck = ck.take (ck.length / 2) ++ ck.drop (ck.length / 2) by
    rw [List.take_append_drop]]
  rw [commit_append _ _ _ _ (by rw [htake]; simp), commit_map_smul, commit_map_smul]

theorem dotProd_comm (a b : List F) : dotProd a b = dotProd b a := by
  induction a generalizing b with
  | nil => cases b <;> simp [dotProd]
  | cons x xs ih =>
    cases b with
    | nil => simp [dotProd]
    | cons y ys =>
      have h := ih ys
      simp only [dotProd, List.zipWith_cons_cons, List.sum_cons] at h ⊢
      rw [h, mul_comm]

theorem dotProd_eq_commit_keys (a b : List F) : dotProd a b = commit a b := by
  rw [dotProd_comm, dotProd_eq_commit]

/-- Reduction of one `prove_inner` round on well-shaped inputs: the cross
inner products succeed, `L` and `R` are absorbed, the round challenge is
drawn, and the fold happens — or the whole call panics on a zero
challenge. -/
theorem prove_inner_eq (eng : TE F G σ) (ck_c2 : List G) (a b : List F)
    (ck : List G) (st : σ) (hab : a.length = b.length) (hev : a.length % 2 = 0) :
    prove_inner eng ck_c2 a b ck st
      = (if (eng.challenge .challenge_r
            (eng.absorbComm .R
              (commit (ck.take (a.length / 2) ++ ck_c2)
                (a.drop (a.length / 2) ++
                  [dotProd (a.drop (a.length / 2)) (b.take (a.length / 2))]))
              (eng.absorbComm .L
                (commit (ck.drop (a.length / 2) ++ ck_c2)
                  (a.take (a.length / 2) ++
                    [dotProd (a.take (a.length / 2)) (b.drop (a.length / 2))])) st))).1 = 0
        then .panic
        else .ok
          ((commit (ck.drop (a.length / 2) ++ ck_c2)
              (a.take (a.length / 2) ++
                [dotProd (a.take (a.length / 2)) (b.drop (a.length / 2))]),
            commit (ck.take (a.length / 2) ++ ck_c2)
              (a.drop (a.length / 2) ++
                [dotProd (a.drop (a.length / 2)) (b.take (a.length / 2))]),
            List.zipWith (fun aL aR => aL *
                (eng.challenge .challenge_r
                  (eng.absorbComm .R
                    (commit (ck.take (a.length / 2) ++ ck_c2)
                      (a.drop (a.length / 2) ++
                        [dotProd (a.drop (a.length / 2)) (b.take (a.length / 2))]))
                    (eng.absorbComm .L
                      (commit (ck.drop (a.length / 2) ++ ck_c2)
                        (a.take (a.length / 2) ++
                          [dotProd (a.take (a.length / 2)) (b.drop (a.length / 2))])) st))).1
                + (eng.challenge .challenge_r
                  (eng.absorbComm .R
                    (commit (ck.take (a.length / 2) ++ ck_c2)
                      (a.drop (a.length / 2) ++
                        [dotProd (a.drop (a.length / 2)) (b.take (a.length / 2))]))
                    (eng.absorbComm .L
                      (commit (ck.drop (a.length / 2) ++ ck_c2)
                        (a.take (a.length / 2) ++
                          [dotProd (a.take (a.length / 2)) (b.drop (a.length / 2))])) st))).1⁻¹
                  * aR)
              (a.take (a.length / 2)) (a.drop (a.length / 2)),
            List.zipWith (fun bL bR => bL *
                (eng.challenge .challenge_r
                  (eng.absorbComm .R
                    (commit (ck.take (a.length / 2) ++ ck_c2)
                      (a.drop (a.length / 2) ++
                        [dotProd (a.drop (a.length / 2)) (b.take (a.length / 2))]))
                    (eng.absorbComm .L
                      (commit (ck.drop (a.length / 2) ++ ck_c2)
                        (a.take (a.length / 2) ++
                          [dotProd (a.take (a.length / 2)) (b.drop (a.length / 2))])) st))).1⁻¹
                + (eng.challenge .challenge_r
                  (eng.absorbComm .R
                    (commit (ck.take (a.length / 2) ++ ck_c2)
                      (a.drop (a.length / 2) ++
                        [dotProd (a.drop (a.length / 2)) (b.take (a.length / 2))]))
                    (eng.absorbComm .L
                      (commit (ck.drop (a.length / 2) ++ ck_c2)
                        (a.take (a.length / 2) ++
                          [dotProd (a.take (a.length / 2)) (b.drop (a.length / 2))])) st))).1
                  * bR)
              (b.take (a.length / 2)) (b.drop (a.length / 2)),
            foldKey
              (eng.challenge .challenge_r
                (eng.absorbComm .R
                  (commit (ck.take (a.length / 2) ++ ck_c2)
                    (a.drop (a.length / 2) ++
                      [dotProd (a.drop (a.length / 2)) (b.take (a.length / 2))]))
                  (eng.absorbComm .L
                    (commit (ck.drop (a.length / 2) ++ ck_c2)
                      (a.take (a.length / 2) ++
                        [dotProd (a.take (a.length / 2)) (b.drop (a.length / 2))])) st))).1⁻¹
              (eng.challenge .challenge_r
                (eng.absorbComm .R
                  (commit (ck.take (a.length / 2) ++ ck_c2)
                    (a.drop (a.length / 2) ++
                      [dotProd (a.drop (a.length / 2)) (b.take (a.length / 2))]))
                  (eng.absorbComm .L
                    (commit (ck.drop (a.length / 2) ++ ck_c2)
                      (a.take (a.length / 2) ++
                        [dotProd (a.take (a.length / 2)) (b.drop (a.length / 2))])) st))).1
              ck),
          (eng.challenge .challenge_r
            (eng.absorbComm .R
              (commit (ck.take (a.length / 2) ++ ck_c2)
                (a.drop (a.length / 2) ++
                  [dotProd (a.drop (a.length / 2)) (b.take (a.length / 2))]))
              (eng.absorbComm .L
                (commit (ck.drop (a.length / 2) ++ ck_c2)
                  (a.take (a.length / 2) ++
                    [dotProd (a.take (a.length / 2)) (b.drop (a.length / 2))])) st))).2)) := by
  have ht : (a.take (a.length / 2)).length = (b.drop (a.length / 2)).length := by
    simp [hab.symm]
    omega
  have ht2 : (a.drop (a.length / 2)).length = (b.take (a.length / 2)).length := by
    simp [hab.symm]
    omega
  simp only [prove_inner]
  rw [inner_product, if_pos ht, inner_product, if_pos ht2]
  dsimp only
  split
  · rename_i e heq
    exact absurd heq (invertUnwrap_ne_err _ _)
  · rename_i heq
    split
    · rfl
    · rename_i hc
      rw [invertUnwrap, if_neg hc] at heq
      simp at heq
  · rename_i rinv heq
    split
    · rename_i hc
      rw [invertUnwrap, if_pos hc] at heq
      simp at heq
    · rename_i hc
      rw [invertUnwrap, if_neg hc] at heq
      rw [← PRes.ok.inj heq]

/-- The per-round algebraic invariant: folding `a` with `(r, r⁻¹)`, `b` and
the key with `(r⁻¹, r)` turns the running commitment
`Commit(ck, a) + <a,b> • ĝ` into `r² • L + (previous) + r⁻² • R`. -/
theorem round_invariant (r : F) (hr : r ≠ 0) (m : Nat)
    (aL aR bL bR : List F) (ckL ckR : List G) (ck_c2 : List G)
    (hal : aL.length = m) (har : aR.length = m) (hbl : bL.length = m)
    (hbr : bR.length = m) (hkl : ckL.length = m) (hkr : ckR.length = m) :
    commit (List.zipWith (fun l rr => r⁻¹ • l + r • rr) ckL ckR)
        (List.zipWith (fun aLx aRx => aLx * r + r⁻¹ * aRx) aL aR)
      + (dotProd (List.zipWith (fun aLx aRx => aLx * r + r⁻¹ * aRx) aL aR)
          (List.zipWith (fun bLx bRx => bLx * r⁻¹ + r * bRx) bL bR))
        • commit ck_c2 [(1 : F)]
    = (r * r) • commit (ckR ++ ck_c2) (aL ++ [dotProd aL bR])
      + (commit (ckL ++ ckR) (aL ++ aR)
          + (dotProd (aL ++ aR) (bL ++ bR)) • commit ck_c2 [(1 : F)])
      + (r⁻¹ * r⁻¹) • commit (ckL ++ ck_c2) (aR ++ [dotProd aR bL]) := by
  have hrr : r * r⁻¹ = 1 := mul_inv_cancel₀ hr
  have hrr' : r⁻¹ * r = 1 := inv_mul_cancel₀ hr
  have hL : commit (ckR ++ ck_c2) (aL ++ [dotProd aL bR])
      = commit ckR aL + (dotProd aL bR) • commit ck_c2 [(1 : F)] := by
    rw [commit_append _ _ _ _ (hkr.trans hal.symm), commit_singleton]
  have hR : commit (ckL ++ ck_c2) (aR ++ [dotProd aR bL])
      = commit ckL aR + (dotProd aR bL) • commit ck_c2 [(1 : F)] := by
    rw [commit_append _ _ _ _ (hkl.trans har.symm), commit_singleton]
  have hsplit : commit (ckL ++ ckR) (aL ++ aR) = commit ckL aL + commit ckR aR :=
    commit_append _ _ _ _ (hkl.trans hal.symm)
  have hdots : dotProd (aL ++ aR) (bL ++ bR) = dotProd aL bL + dotProd aR bR := by
    rw [dotProd_eq_commit, dotProd_eq_commit, dotProd_eq_commit,
      commit_append _ _ _ _ (hbl.trans hal.symm)]
  have hfa : (fun (aLx aRx : F) => aLx * r + r⁻¹ * aRx)
      = fun s t => r * s + r⁻¹ * t := by
    funext s t
    ring
  have hkey : commit (List.zipWith (fun l rr => r⁻¹ • l + r • rr) ckL ckR)
      (List.zipWith (fun aLx aRx => aLx * r + r⁻¹ * aRx) aL aR)
      = commit ckL aL + (r * r) • commit ckR aL
        + (r⁻¹ * r⁻¹) • commit ckL aR + commit ckR aR := by
    rw [hfa, commit_fold_expand r⁻¹ r r r⁻¹ ckL ckR aL aR
      (hkl.trans hkr.symm) (hkl.trans hal.symm) (hkr.trans har.symm)]
    rw [hrr, hrr', one_smul, one_smul]
  have hfb : (fun (bLx bRx : F) => bLx * r⁻¹ + r * bRx)
      = fun (g h : F) => r⁻¹ • g + r • h := by
    funext g h
    simp only [smul_eq_mul]
    ring
  have hdot2 : dotProd (List.zipWith (fun aLx aRx => aLx * r + r⁻¹ * aRx) aL aR)
      (List.zipWith (fun bLx bRx => bLx * r⁻¹ + r * bRx) bL bR)
      = dotProd aL bL + dotProd aR bR
        + (r * r) * dotProd aL bR + (r⁻¹ * r⁻¹) * dotProd aR bL := by
    rw [dotProd_eq_commit, hfa, hfb,
      commit_fold_expand r⁻¹ r r r⁻¹ bL bR aL aR
        (hbl.trans hbr.symm) (hbl.trans hal.symm) (hbr.trans har.symm)]
    simp only [smul_eq_mul]
    rw [hrr, hrr', one_mul, one_mul, ← dotProd_eq_commit, ← dotProd_eq_commit,
      ← dotProd_eq_commit, ← dotProd_eq_commit]
    ring
  rw [hkey, hdot2, hL, hR, hsplit, hdots]
  module

/-- One well-shaped round under nonzero challenges: names for the round
challenge, the post-round transcript state, and the folded outputs. -/
theorem prove_inner_spec (eng : TE F G σ) (ck_c2 : List G)
    (hnz : ∀ s : σ, (eng.challenge .challenge_r s).1 ≠ 0)
    (a b : List F) (ck : List G) (st : σ)
    (hab : a.length = b.length) (hev : a.length % 2 = 0) :
    ∃ (r : F) (st1 : σ),
      r ≠ 0 ∧
      eng.challenge .challenge_r
          (eng.absorbComm .R
            (commit (ck.take (a.length / 2) ++ ck_c2)
              (a.drop (a.length / 2) ++
                [dotProd (a.drop (a.length / 2)) (b.take (a.length / 2))]))
            (eng.absorbComm .L
              (commit (ck.drop (a.length / 2) ++ ck_c2)
                (a.take (a.length / 2) ++
                  [dotProd (a.take (a.length / 2)) (b.drop (a.length / 2))])) st))
        = (r, st1) ∧
      prove_inner eng ck_c2 a b ck st = .ok
        ((commit (ck.drop (a.length / 2) ++ ck_c2)
            (a.take (a.length / 2) ++
              [dotProd (a.take (a.length / 2)) (b.drop (a.length / 2))]),
          commit (ck.take (a.length / 2) ++ ck_c2)
            (a.drop (a.length / 2) ++
              [dotProd (a.drop (a.length / 2)) (b.take (a.length / 2))]),
          List.zipWith (fun aLx aRx => aLx * r + r⁻¹ * aRx)
            (a.take (a.length / 2)) (a.drop (a.length / 2)),
          List.zipWith (fun bLx bRx => bLx * r⁻¹ + r * bRx)
            (b.take (a.length / 2)) (b.drop (a.length / 2)),
          foldKey r⁻¹ r ck), st1) := by
  refine ⟨_, _, hnz _, Prod.mk.eta.symm, ?_⟩
  rw [prove_inner_eq eng ck_c2 a b ck st hab hev, if_neg (hnz _)]

/-- The main loop lemma: on well-shaped inputs of length `2^k`, with all
round challenges nonzero, `proveLoop` succeeds; the verifier's replay of the
recorded `L`/`R` commitments from the same starting state yields the same
challenges and the same final transcript state; the final folded `b` and key
are the tensor-weighted combinations of the originals; and the running
commitment satisfies the accumulated cross-term identity. -/
theorem proveLoop_spec (eng : TE F G σ) (ck_c2 : List G)
    (hnz : ∀ s : σ, (eng.challenge .challenge_r s).1 ≠ 0) :
    ∀ (k : Nat) (a b : List F) (ck : List G) (st : σ),
      a.length = 2 ^ k → b.length = 2 ^ k → ck.length = 2 ^ k →
      ∃ (Ls Rs : List G) (rs : List F) (ah : F) (st2 : σ),
        proveLoop eng ck_c2 k a b ck st
          = .ok ((Ls, Rs, [ah], [dotProd b (tensorS rs)],
              [commit ck (tensorS rs)]), st2) ∧
        replayChallenges eng (Ls.zip Rs) st = (rs, st2) ∧
        Ls.length = k ∧ Rs.length = k ∧ rs.length = k ∧
        (∀ x ∈ rs, x ≠ 0) ∧
        ah • commit ck (tensorS rs)
            + (ah * dotProd b (tensorS rs)) • commit ck_c2 [(1 : F)]
          = commit ck a + (dotProd a b) • commit ck_c2 [(1 : F)]
            + commit Ls (rs.map (fun x => x * x))
            + commit Rs (rs.map (fun x => x⁻¹ * x⁻¹)) := by
  intro k
  induction k with
  | zero =>
    intro a b ck st ha hb hck
    obtain ⟨a0, ha0⟩ := List.length_eq_one.1 (by simpa using ha)
    obtain ⟨b0, hb0⟩ := List.length_eq_one.1 (by simpa using hb)
    obtain ⟨g0, hg0⟩ := List.length_eq_one.1 (by simpa using hck)
    subst ha0
    subst hb0
    subst hg0
    refine ⟨[], [], [], a0, st, ?_, by simp [replayChallenges], rfl, rfl, rfl,
      by simp, ?_⟩
    · simp [proveLoop, tensorS, dotProd, commit]
    · simp [tensorS, dotProd, commit]
  | succ k ih =>
    intro a b ck st ha hb hck
    have hev : a.length % 2 = 0 := by
      rw [ha, pow_succ]
      simp [Nat.mul_mod_left]
    have hab : a.length = b.length := by rw [ha, hb]
    have hm : a.length / 2 = 2 ^ k := by
      rw [ha, pow_succ]
      omega
    obtain ⟨r, st1, hr0, hchal, hpi⟩ :=
      prove_inner_spec eng ck_c2 hnz a b ck st hab hev
    have ha' : (List.zipWith (fun aLx aRx => aLx * r + r⁻¹ * aRx)
        (a.take (a.length / 2)) (a.drop (a.length / 2))).length = 2 ^ k := by
      simp only [List.length_zipWith, List.length_take, List.length_drop]
      omega
    have hb' : (List.zipWith (fun bLx bRx => bLx * r⁻¹ + r * bRx)
        (b.take (a.length / 2)) (b.drop (a.length / 2))).length = 2 ^ k := by
      simp only [List.length_zipWith, List.length_take, List.length_drop]
      rw [← hab]
      omega
    have hck' : (foldKey r⁻¹ r ck).length = 2 ^ k := by
      simp only [foldKey, List.length_zipWith, List.length_take, List.length_drop]
      rw [hck, ha] at *
      rw [pow_succ] at *
      omega
    obtain ⟨Ls, Rs, rs, ah, st2, hloop, hreplay, hLs, hRs, hrs, hnzall, hinv⟩ :=
      ih _ _ _ st1 ha' hb' hck'
    have hckfold : commit (foldKey r⁻¹ r ck) (tensorS rs)
        = commit ck (tensorS (r :: rs)) := by
      rw [commit_foldKey_tensor r⁻¹ r ck (tensorS rs)
        (by rw [tensorS_length, hck, hrs, pow_succ]; ring)]
      rfl
    have hbfk : List.zipWith (fun bLx bRx => bLx * r⁻¹ + r * bRx)
        (b.take (a.length / 2)) (b.drop (a.length / 2)) = foldKey r⁻¹ r b := by
      rw [foldKey, hab]
      congr 1
      funext g h
      simp only [smul_eq_mul]
      ring
    have hbfold : dotProd (List.zipWith (fun bLx bRx => bLx * r⁻¹ + r * bRx)
        (b.take (a.length / 2)) (b.drop (a.length / 2))) (tensorS rs)
        = dotProd b (tensorS (r :: rs)) := by
      rw [dotProd_eq_commit_keys, dotProd_eq_commit_keys, hbfk,
        commit_foldKey_tensor r⁻¹ r b (tensorS rs)
          (by rw [tensorS_length, hb, hrs, pow_succ]; ring)]
      rfl
    refine ⟨commit (ck.drop (a.length / 2) ++ ck_c2)
        (a.take (a.length / 2) ++
          [dotProd (a.take (a.length / 2)) (b.drop (a.length / 2))]) :: Ls,
      commit (ck.take (a.length / 2) ++ ck_c2)
        (a.drop (a.length / 2) ++
          [dotProd (a.drop (a.length / 2)) (b.take (a.length / 2))]) :: Rs,
      r :: rs, ah, st2, ?_, ?_, by simp [hLs], by simp [hRs], by simp [hrs], ?_, ?_⟩
    · simp only [proveLoop]
      rw [hpi]
      dsimp only
      rw [hloop, hbfold, hckfold]
    · simp only [List.zip_cons_cons, replayChallenges]
      rw [hchal]
      dsimp only
      rw [show List.zipWith Prod.mk Ls Rs = Ls.zip Rs from rfl, hreplay]
    · intro x hx
      rcases List.mem_cons.1 hx with hx1 | hx2
      · rw [hx1]; exact hr0
      · exact hnzall x hx2
    · have hconsL : commit (commit (ck.drop (a.length / 2) ++ ck_c2)
          (a.take (a.length / 2) ++
            [dotProd (a.take (a.length / 2)) (b.drop (a.length / 2))]) :: Ls)
          ((r :: rs).map (fun x => x * x))
          = (r * r) • commit (ck.drop (a.length / 2) ++ ck_c2)
              (a.take (a.length / 2) ++
                [dotProd (a.take (a.length / 2)) (b.drop (a.length / 2))])
            + commit Ls (rs.map (fun x => x * x)) := by
        simp [commit]
      have hconsR : commit (commit (ck.take (a.length / 2) ++ ck_c2)
          (a.drop (a.length / 2) ++
            [dotProd (a.drop (a.length / 2)) (b.take (a.length / 2))]) :: Rs)
          ((r :: rs).map (fun x => x⁻¹ * x⁻¹))
          = (r⁻¹ * r⁻¹) • commit (ck.take (a.length / 2) ++ ck_c2)
              (a.drop (a.length / 2) ++
                [dotProd (a.drop (a.length / 2)) (b.take (a.length / 2))])
            + commit Rs (rs.map (fun x => x⁻¹ * x⁻¹)) := by
        simp [commit]
      rw [hconsL, hconsR, ← hckfold, ← hbfold, hinv]
      have hcklen : ck.length = a.length := by rw [hck, ha]
      have hri := round_invariant r hr0 (2 ^ k)
        (a.take (a.length / 2)) (a.drop (a.length / 2))
        (b.take (a.length / 2)) (b.drop (a.length / 2))
        (ck.take (a.length / 2)) (ck.drop (a.length / 2)) ck_c2
        (by simp; omega) (by simp; omega)
        (by simp; rw [← hab]; omega) (by simp; rw [← hab]; omega)
        (by simp; rw [hcklen]; omega) (by simp; rw [hcklen]; omega)
      simp only [List.take_append_drop] at hri
      have hfk : foldKey r⁻¹ r ck
          = List.zipWith (fun l rr => r⁻¹ • l + r • rr)
              (ck.take (a.length / 2)) (ck.drop (a.length / 2)) := by
        rw [foldKey, hcklen]
      rw [hfk, hri]
      abel

/-- Completeness on honest inputs (`C = Commit(ck, a)`, `c = <a, b>`,
`|ck| = n = 2^k`, `k < 32`, `|ck_s| = 1` not needed by the model) under
nonzero round challenges: `prove` succeeds and `verify` on a transcript in
the same initial state accepts. -/
theorem completeness_aux (eng : TE F G σ)
    (hnz : ∀ s : σ, (eng.challenge .challenge_r s).1 ≠ 0)
    (k : Nat) (ck ck_c : List G) (a b : List F) (st : σ)
    (ha : a.length = 2 ^ k) (hb : b.length = 2 ^ k) (hck : ck.length = 2 ^ k)
    (hk32 : k < 32) :
    ∃ (arg : InnerProductArgument F G) (st2 : σ),
      InnerProductArgument.prove eng ck ck_c ⟨commit ck a, b, dotProd a b⟩ ⟨a⟩ st
        = .ok (arg, st2) ∧
      (InnerProductArgument.verify eng arg ck ck_c (2 ^ k)
        ⟨commit ck a, b, dotProd a b⟩ st).2 = .ok () := by
  obtain ⟨Ls, Rs, rs, ah, st2, hloop, hreplay, hLs, hRs, hrs, hnzall, hinv⟩ :=
    proveLoop_spec eng
      (scaleKey (eng.challenge .r (eng.absorbScalar .c (dotProd a b)
        (eng.absorbComm .comm_a_vec (commit ck a)
          (eng.absorbProtocolName st)))).1 ck_c)
      hnz k a b ck
      (eng.challenge .r (eng.absorbScalar .c (dotProd a b)
        (eng.absorbComm .comm_a_vec (commit ck a)
          (eng.absorbProtocolName st)))).2 ha hb hck
  refine ⟨⟨Ls, Rs, ah⟩, st2, ?_, ?_⟩
  · simp only [InnerProductArgument.prove]
    rw [if_neg (by rw [ha, hb]; simp)]
    rw [hb, Nat.log2_two_pow, hloop]
  · have hg : ¬ vGuard (⟨Ls, Rs, ah⟩ : InnerProductArgument F G) (2 ^ k)
        ⟨commit ck a, b, dotProd a b⟩ := by
      unfold vGuard
      push_neg
      dsimp only
      exact ⟨hb, by rw [hLs], by rw [hLs, hRs], by rw [hLs]; omega⟩
    have hfin := verify_accept_iff_final_check eng ⟨Ls, Rs, ah⟩ ck ck_c (2 ^ k)
      ⟨commit ck a, b, dotProd a b⟩ st hg rs st2 hreplay hnzall
    rw [hfin.1]
    split
    · rfl
    · rename_i hc
      exfalso
      apply hc
      have hsEq : buildS (2 ^ k) Ls.length (rs.map (fun x => x⁻¹))
          (rs.map (fun x => x * x)) = tensorS rs := by
        rw [hLs, ← hrs]
        exact buildS_eq_tensorS rs
      have hmm : (rs.map (fun x => x⁻¹)).map (fun x => x * x)
          = rs.map (fun x => x⁻¹ * x⁻¹) := by
        rw [List.map_map]
        rfl
      rw [hsEq, hmm]
      set ckc2 : List G := scaleKey (eng.challenge .r (eng.absorbScalar .c (dotProd a b)
        (eng.absorbComm .comm_a_vec (commit ck a)
          (eng.absorbProtocolName st)))).1 ck_c with hckc2
      have h1 := commit_append (Ls ++ Rs) [commit ck a + commit ckc2 [dotProd a b]]
        (rs.map (fun x => x * x) ++ rs.map (fun x => x⁻¹ * x⁻¹)) [(1 : F)]
        (by simp [hLs, hRs, hrs])
      have h2 := commit_append Ls Rs
        (rs.map (fun x => x * x)) (rs.map (fun x => x⁻¹ * x⁻¹))
        (by rw [hLs, List.length_map, hrs])
      have h3 : commit [commit ck a + commit ckc2 [dotProd a b]] [(1 : F)]
          = commit ck a + commit ckc2 [dotProd a b] := by
        simp [commit]
      have h4 : commit ([commit ck (tensorS rs)] ++ ckc2)
          [ah, ah * dotProd b (tensorS rs)]
          = ah • commit ck (tensorS rs)
            + (ah * dotProd b (tensorS rs)) • commit ckc2 [(1 : F)] := by
        rw [show ([commit ck (tensorS rs)] ++ ckc2)
            = commit ck (tensorS rs) :: ckc2 from rfl,
          show ([ah, ah * dotProd b (tensorS rs)] : List F)
            = ah :: [ah * dotProd b (tensorS rs)] from rfl,
          commit_cons, commit_singleton]
      have h5 : commit ckc2 [dotProd a b]
          = (dotProd a b) • commit ckc2 [(1 : F)] := commit_singleton _ _
      rw [h1, h2, h3, h4, h5, hinv]
      abel

/-! ### Shapes of successful runs of `prove` -/

theorem prove_inner_ok_lengths (eng : TE F G σ) (ck_c2 : List G) (a b : List F)
    (ck : List G) (st : σ) (Lc Rc : G) (af bf : List F) (ckf : List G) (t : σ)
    (hab : b.length = a.length)
    (h : prove_inner eng ck_c2 a b ck st = .ok ((Lc, Rc, af, bf, ckf), t)) :
    af.length = a.length / 2 ∧ bf.length = a.length / 2 := by
  simp only [prove_inner] at h
  split at h
  · simp at h
  · simp at h
  · split at h
    · simp at h
    · simp at h
    · split at h
      · simp at h
      · simp at h
      · simp only [PRes.ok.injEq, Prod.mk.injEq] at h
        obtain ⟨⟨hL, hR, haf, hbf, hckf⟩, ht⟩ := h
        constructor
        · rw [← haf]
          simp only [List.length_zipWith, List.length_take, List.length_drop]
          omega
        · rw [← hbf]
          simp only [List.length_zipWith, List.length_take, List.length_drop, hab]
          omega

theorem proveLoop_ok_shape (eng : TE F G σ) (ck_c2 : List G) :
    ∀ (k : Nat) (a b : List F) (ck : List G) (st : σ)
      (Ls Rs : List G) (af bf : List F) (ckf : List G) (st2 : σ),
      a.length = 2 ^ k → b.length = a.length →
      proveLoop eng ck_c2 k a b ck st = .ok ((Ls, Rs, af, bf, ckf), st2) →
      Ls.length = k ∧ Rs.length = k ∧ af.length = 1 := by
  intro k
  induction k with
  | zero =>
    intro a b ck st Ls Rs af bf ckf st2 ha hb h
    simp only [proveLoop, PRes.ok.injEq, Prod.mk.injEq] at h
    obtain ⟨⟨hL, hR, haf, hbf, hckf⟩, ht⟩ := h
    refine ⟨by rw [← hL]; rfl, by rw [← hR]; rfl, ?_⟩
    rw [← haf]
    simpa using ha
  | succ k ih =>
    intro a b ck st Ls Rs af bf ckf st2 ha hb h
    simp only [proveLoop] at h
    split at h
    · simp at h
    · simp at h
    · rename_i tup heq
      split at h
      · simp at h
      · simp at h
      · rename_i tup2 heq2
        simp only [PRes.ok.injEq, Prod.mk.injEq] at h
        obtain ⟨⟨hL, hR, haf, hbf, hckf⟩, ht⟩ := h
        obtain ⟨haf1, hbf1⟩ := prove_inner_ok_lengths eng ck_c2 a b ck st
          _ _ _ _ _ _ hb heq
        have hhalf : a.length / 2 = 2 ^ k := by
          rw [ha, pow_succ]
          omega
        obtain ⟨hl2, hr2, hafl⟩ := ih _ _ _ _ _ _ _ _ _ _
          (by rw [haf1, hhalf]) (by rw [haf1, hbf1]) heq2
        exact ⟨by rw [← hL]; simp [hl2], by rw [← hR]; simp [hr2],
          by rw [← haf]; exact hafl⟩

theorem prove_ok_shape (eng : TE F G σ) (ck ck_c : List G)
    (U : InnerProductInstance F G) (W : InnerProductWitness F) (st : σ)
    (k : Nat) (arg : InnerProductArgument F G) (st2 : σ)
    (hb : U.b_vec.length = 2 ^ k) (ha : W.a_vec.length = 2 ^ k)
    (h : InnerProductArgument.prove eng ck ck_c U W st = .ok (arg, st2)) :
    arg.L_vec.length = k ∧ arg.R_vec.length = k ∧
    ∃ (bf : List F) (ckf : List G),
      proveLoop eng
        (scaleKey (eng.challenge .r (eng.absorbScalar .c U.c
          (eng.absorbComm .comm_a_vec U.comm_a_vec
            (eng.absorbProtocolName st)))).1 ck_c)
        k W.a_vec U.b_vec ck
        (eng.challenge .r (eng.absorbScalar .c U.c
          (eng.absorbComm .comm_a_vec U.comm_a_vec
            (eng.absorbProtocolName st)))).2
      = .ok ((arg.L_vec, arg.R_vec, [arg.a_hat], bf, ckf), st2) := by
  simp only [InnerProductArgument.prove] at h
  rw [if_neg (by rw [ha, hb]; simp), hb, Nat.log2_two_pow] at h
  rcases hloopres : proveLoop eng
      (scaleKey (eng.challenge .r (eng.absorbScalar .c U.c
        (eng.absorbComm .comm_a_vec U.comm_a_vec
          (eng.absorbProtocolName st)))).1 ck_c)
      k W.a_vec U.b_vec ck
      (eng.challenge .r (eng.absorbScalar .c U.c
        (eng.absorbComm .comm_a_vec U.comm_a_vec
          (eng.absorbProtocolName st)))).2
    with ⟨⟨Ls2, Rs2, af, bf2, ckf2⟩, t3⟩ | e | _
  · rw [hloopres] at h
    obtain ⟨hl, hr, hafl⟩ := proveLoop_ok_shape eng _ k W.a_vec U.b_vec ck _
      Ls2 Rs2 af bf2 ckf2 t3 ha (by rw [ha, hb]) hloopres
    cases af with
    | nil => simp at hafl
    | cons a0 tl =>
      have htl : tl = [] := by simpa using hafl
      subst htl
      simp only [PRes.ok.injEq, Prod.mk.injEq] at h
      obtain ⟨harg, ht⟩ := h
      subst ht
      subst harg
      exact ⟨hl, hr, bf2, ckf2, rfl⟩
  · rw [hloopres] at h
    simp at h
  · rw [hloopres] at h
    simp at h

theorem prove_ok_of_nonzero (eng : TE F G σ)
    (hnz : ∀ s : σ, (eng.challenge .challenge_r s).1 ≠ 0)
    (k : Nat) (ck ck_c : List G) (U : InnerProductInstance F G)
    (W : InnerProductWitness F) (st : σ)
    (hb : U.b_vec.length = 2 ^ k) (ha : W.a_vec.length = 2 ^ k)
    (hck : ck.length = 2 ^ k) :
    ∃ (arg : InnerProductArgument F G) (st2 : σ),
      InnerProductArgument.prove eng ck ck_c U W st = .ok (arg, st2) := by
  obtain ⟨Ls, Rs, rs, ah, st2, hloop, _, _, _, _, _, _⟩ :=
    proveLoop_spec eng
      (scaleKey (eng.challenge .r (eng.absorbScalar .c U.c
        (eng.absorbComm .comm_a_vec U.comm_a_vec
          (eng.absorbProtocolName st)))).1 ck_c)
      hnz k W.a_vec U.b_vec ck
      (eng.challenge .r (eng.absorbScalar .c U.c
        (eng.absorbComm .comm_a_vec U.comm_a_vec
          (eng.absorbProtocolName st)))).2 ha hb hck
  refine ⟨⟨Ls, Rs, ah⟩, st2, ?_⟩
  simp only [InnerProductArgument.prove]
  rw [if_neg (by rw [ha, hb]; simp), hb, Nat.log2_two_pow, hloop]

theorem commit_replicate_zero :
    ∀ (ck : List G) (m : Nat), commit ck (List.replicate m (0 : F)) = 0 := by
  intro ck
  induction ck with
  | nil => intro m; rfl
  | cons g rest ih =>
    intro m
    cases m with
    | zero => rfl
    | succ m =>
      rw [List.replicate_succ, commit_cons, ih m, zero_smul, zero_add]

theorem dotProd_replicate_zero :
    ∀ (b : List F) (m : Nat), dotProd (List.replicate m (0 : F)) b = 0 := by
  intro b
  induction b with
  | nil =>
    intro m
    cases m <;> simp [dotProd]
  | cons y ys ih =>
    intro m
    cases m with
    | zero => simp [dotProd]
    | succ m =>
      rw [List.replicate_succ]
      simp only [dotProd, List.zipWith_cons_cons, List.sum_cons, zero_mul, zero_add]
      exact ih m

/-! ### Claims C1, C8, C9, C10 -/

/-- Counterexample to claim C1 as stated: at `n = 2^32` (over
`F = G = ZMod 13`, constant-`1` transcript engine, all-zero vectors and
keys, honestly committed instance) `prove` succeeds but `verify` rejects
the honestly produced argument with the shape error, because of its own
`|L_vec| < 32` bound.  Completeness as universally stated over all
`n = 2^k` is therefore false. -/
theorem completeness_claim_counterexample :
    commit (List.replicate (2 ^ 32) (0 : ZMod 13))
        (List.replicate (2 ^ 32) (0 : ZMod 13)) = 0 ∧
    dotProd (List.replicate (2 ^ 32) (0 : ZMod 13))
        (List.replicate (2 ^ 32) (0 : ZMod 13)) = 0 ∧
    ∃ (arg : InnerProductArgument (ZMod 13) (ZMod 13)) (st2 : Unit),
      InnerProductArgument.prove (oneTE (ZMod 13) (ZMod 13))
          (List.replicate (2 ^ 32) (0 : ZMod 13)) [1]
          ⟨0, List.replicate (2 ^ 32) (0 : ZMod 13), 0⟩
          ⟨List.replicate (2 ^ 32) (0 : ZMod 13)⟩ ()
        = .ok (arg, st2) ∧
      (InnerProductArgument.verify (oneTE (ZMod 13) (ZMod 13)) arg
          (List.replicate (2 ^ 32) (0 : ZMod 13)) [1] (2 ^ 32)
          ⟨0, List.replicate (2 ^ 32) (0 : ZMod 13), 0⟩ ()).2
        = .err NovaError.InvalidInputLength := by
  refine ⟨commit_replicate_zero _ _, dotProd_replicate_zero _ _, ?_⟩
  obtain ⟨arg, st2, hp⟩ := prove_ok_of_nonzero (oneTE (ZMod 13) (ZMod 13))
    (fun _ => one_ne_zero) 32 (List.replicate (2 ^ 32) (0 : ZMod 13)) [1]
    ⟨0, List.replicate (2 ^ 32) (0 : ZMod 13), 0⟩
    ⟨List.replicate (2 ^ 32) (0 : ZMod 13)⟩ ()
    (List.length_replicate _ _) (List.length_replicate _ _)
    (List.length_replicate _ _)
  refine ⟨arg, st2, hp, ?_⟩
  have hshape := prove_ok_shape (oneTE (ZMod 13) (ZMod 13))
    (List.replicate (2 ^ 32) (0 : ZMod 13)) [1]
    ⟨0, List.replicate (2 ^ 32) (0 : ZMod 13), 0⟩
    ⟨List.replicate (2 ^ 32) (0 : ZMod 13)⟩ () 32 arg st2
    (List.length_replicate _ _) (List.length_replicate _ _) hp
  rw [verify_guard_rejects _ _ _ _ _ _ _
    (by right; right; right; rw [hshape.1])]

/-- Claim C1 (amended): completeness for honest instances, restricted as
the code forces — `k < 32` (the verifier's hard bound on `|L_vec|`
rejects honest arguments for larger `k`) and every round challenge drawn
from the transcript nonzero (a zero challenge makes `prove` panic on
`invert().unwrap()`, the precondition recorded by claim C9).  Under these
conditions `prove` succeeds and `verify` on a second transcript in the
same initial state accepts. -/
theorem ipa_completeness (eng : TE F G σ)
    (hnz : ∀ s : σ, (eng.challenge .challenge_r s).1 ≠ 0)
    (k : Nat) (hk32 : k < 32) (ck ck_c : List G) (a b : List F)
    (C : G) (c : F) (st : σ)
    (hck : ck.length = 2 ^ k) (hkc : ck_c.length = 1)
    (ha : a.length = 2 ^ k) (hb : b.length = 2 ^ k)
    (hC : commit ck a = C) (hc : dotProd a b = c) :
    ∃ (arg : InnerProductArgument F G) (st2 : σ),
      InnerProductArgument.prove eng ck ck_c ⟨C, b, c⟩ ⟨a⟩ st = .ok (arg, st2) ∧
      (InnerProductArgument.verify eng arg ck ck_c (2 ^ k) ⟨C, b, c⟩ st).2
        = .ok () := by
  subst hC
  subst hc
  exact completeness_aux eng hnz k ck ck_c a b st ha hb hck hk32

theorem prove_base (eng : TE F G σ) (ck ck_c : List G)
    (U : InnerProductInstance F G) (W : InnerProductWitness F) (st : σ)
    (a0 : F) (hW : W.a_vec = [a0]) (hU : U.b_vec.length = 1) :
    InnerProductArgument.prove eng ck ck_c U W st
      = .ok (⟨[], [], a0⟩, (eng.challenge .r (eng.absorbScalar .c U.c
          (eng.absorbComm .comm_a_vec U.comm_a_vec
            (eng.absorbProtocolName st)))).2) := by
  simp only [InnerProductArgument.prove]
  rw [if_neg (by rw [hU, hW]; simp), hU]
  rw [show Nat.log2 1 = 0 from by simp [Nat.log2]]
  rw [hW]
  simp only [proveLoop]

theorem buildS_one (a b : List F) : buildS 1 0 a b = [a.foldl (fun v x => v * x) 1] := by
  simp [buildS, sEntry, List.range_succ]

/-- Witness for the amended C1: a full honest round trip at `n = 2` over
`ZMod 13` with the constant-`1` engine. -/
theorem ipa_completeness_witness :
    ∃ (arg : InnerProductArgument (ZMod 13) (ZMod 13)) (st2 : Unit),
      InnerProductArgument.prove (oneTE (ZMod 13) (ZMod 13)) [2, 3] [7]
          ⟨commit ([2, 3] : List (ZMod 13)) ([1, 2] : List (ZMod 13)), [3, 4],
            dotProd ([1, 2] : List (ZMod 13)) [3, 4]⟩ ⟨[1, 2]⟩ ()
        = .ok (arg, st2) ∧
      (InnerProductArgument.verify (oneTE (ZMod 13) (ZMod 13)) arg [2, 3] [7]
          (2 ^ 1)
          ⟨commit ([2, 3] : List (ZMod 13)) ([1, 2] : List (ZMod 13)), [3, 4],
            dotProd ([1, 2] : List (ZMod 13)) [3, 4]⟩ ()).2
        = .ok () :=
  ipa_completeness (oneTE (ZMod 13) (ZMod 13)) (fun _ => one_ne_zero) 1
    (by norm_num) ([2, 3] : List (ZMod 13)) ([7] : List (ZMod 13))
    ([1, 2] : List (ZMod 13)) ([3, 4] : List (ZMod 13))
    (commit ([2, 3] : List (ZMod 13)) ([1, 2] : List (ZMod 13)))
    (dotProd ([1, 2] : List (ZMod 13)) ([3, 4] : List (ZMod 13))) ()
    rfl rfl rfl rfl rfl rfl

/-- Claim C8: size law and `n = 1` boundary.  (a) Any successfully
produced argument for an instance with `|b_vec| = |a_vec| = 2^k` has
`|L_vec| = |R_vec| = k = log2 n` exactly, and `a_hat` is the single
entry remaining after all `k` folds (the folding loop returns exactly
`[a_hat]`).  (b) At `n = 1` the loop runs zero rounds: `prove` returns
the argument with empty `L_vec` and `R_vec` and `a_hat = a_vec[0]`, and
`verify` accepts the honestly produced argument. -/
theorem prove_size_law_and_boundary :
    (∀ (eng : TE F G σ) (ck ck_c : List G) (U : InnerProductInstance F G)
        (W : InnerProductWitness F) (st : σ) (k : Nat)
        (arg : InnerProductArgument F G) (st2 : σ),
      U.b_vec.length = 2 ^ k → W.a_vec.length = 2 ^ k →
      InnerProductArgument.prove eng ck ck_c U W st = .ok (arg, st2) →
      arg.L_vec.length = k ∧ arg.R_vec.length = k ∧
      ∃ (bf : List F) (ckf : List G),
        proveLoop eng
          (scaleKey (eng.challenge .r (eng.absorbScalar .c U.c
            (eng.absorbComm .comm_a_vec U.comm_a_vec
              (eng.absorbProtocolName st)))).1 ck_c)
          k W.a_vec U.b_vec ck
          (eng.challenge .r (eng.absorbScalar .c U.c
            (eng.absorbComm .comm_a_vec U.comm_a_vec
              (eng.absorbProtocolName st)))).2
        = .ok ((arg.L_vec, arg.R_vec, [arg.a_hat], bf, ckf), st2)) ∧
    (∀ (eng : TE F G σ) (ck ck_c : List G) (a0 b0 : F) (st : σ),
      ∃ st2 : σ,
        InnerProductArgument.prove eng ck ck_c
            ⟨commit ck [a0], [b0], dotProd [a0] [b0]⟩ ⟨[a0]⟩ st
          = .ok (⟨[], [], a0⟩, st2) ∧
        (InnerProductArgument.verify eng ⟨[], [], a0⟩ ck ck_c 1
            ⟨commit ck [a0], [b0], dotProd [a0] [b0]⟩ st).2 = .ok ()) := by
  constructor
  · intro eng ck ck_c U W st k arg st2 hb ha h
    exact prove_ok_shape eng ck ck_c U W st k arg st2 hb ha h
  · intro eng ck ck_c a0 b0 st
    refine ⟨_, prove_base eng ck ck_c _ _ st a0 rfl (by simp), ?_⟩
    have h := verify_accept_iff_final_check eng
      (⟨[], [], a0⟩ : InnerProductArgument F G) ck ck_c 1
      (⟨commit ck [a0], [b0], dotProd [a0] [b0]⟩ : InnerProductInstance F G) st
      (by simp [vGuard]) [] _ rfl (by simp)
    rw [h.1]
    dsimp only
    split
    · rfl
    · rename_i hc
      exfalso
      apply hc
      simp only [List.map_nil, List.nil_append, List.length_nil, buildS_one,
        List.foldl_nil, List.singleton_append, commit_cons, commit_nil_scalars,
        one_smul, add_zero]
      rw [commit_singleton ck a0,
        show dotProd [a0] ([b0] : List F) = a0 * dotProd [b0] ([1] : List F)
          from by simp [dotProd]]

/-- Witness for C8: at `n = 1` over `ZMod 13`, the boundary round trip
succeeds, and the size law instantiated on its output argument gives
`|L_vec| = |R_vec| = 0`. -/
theorem prove_size_law_and_boundary_witness :
    ∃ st2 : Unit,
      InnerProductArgument.prove (oneTE (ZMod 13) (ZMod 13)) [5] [7]
          ⟨commit ([5] : List (ZMod 13)) ([2] : List (ZMod 13)), [3],
            dotProd ([2] : List (ZMod 13)) [3]⟩ ⟨[2]⟩ ()
        = .ok (⟨[], [], 2⟩, st2) ∧
      (InnerProductArgument.verify (oneTE (ZMod 13) (ZMod 13)) ⟨[], [], 2⟩
          [5] [7] 1
          ⟨commit ([5] : List (ZMod 13)) ([2] : List (ZMod 13)), [3],
            dotProd ([2] : List (ZMod 13)) [3]⟩ ()).2 = .ok () ∧
      (⟨[], [], (2 : ZMod 13)⟩
          : InnerProductArgument (ZMod 13) (ZMod 13)).L_vec.length = 0 ∧
      (⟨[], [], (2 : ZMod 13)⟩
          : InnerProductArgument (ZMod 13) (ZMod 13)).R_vec.length = 0 := by
  obtain ⟨st2, hp, hv⟩ :=
    (@prove_size_law_and_boundary (ZMod 13) (ZMod 13) Unit _ _ _ _ _).2
      (oneTE (ZMod 13) (ZMod 13)) [5] [7] 2 3 ()
  have hs := (@prove_size_law_and_boundary (ZMod 13) (ZMod 13) Unit _ _ _ _ _).1
    (oneTE (ZMod 13) (ZMod 13)) [5] [7]
    ⟨commit ([5] : List (ZMod 13)) ([2] : List (ZMod 13)), [3],
      dotProd ([2] : List (ZMod 13)) [3]⟩ ⟨[2]⟩ () 0 ⟨[], [], 2⟩ st2
    (by simp) (by simp) hp
  exact ⟨st2, hp, hv, hs.1, hs.2.1⟩

/-- Claim C9: `prove` is total exactly under the precondition that the
transcript-derived round challenges are nonzero.  (a) If every
challenge the engine can emit for the round label is nonzero, `prove`
returns `Ok` on every power-of-two-shaped input.  (b) If the first
round's challenge (drawn after absorbing that round's `L` and `R`
commitments) is `0`, `prove` panics — `invert().unwrap()` — instead of
returning an error.  (c) With matching input lengths `prove` never
returns `Err` at all: a zero challenge has no error path. -/
theorem prove_zero_challenge_totality :
    (∀ (eng : TE F G σ), (∀ s : σ, (eng.challenge .challenge_r s).1 ≠ 0) →
      ∀ (k : Nat) (ck ck_c : List G) (U : InnerProductInstance F G)
        (W : InnerProductWitness F) (st : σ),
        U.b_vec.length = 2 ^ k → W.a_vec.length = 2 ^ k → ck.length = 2 ^ k →
        ∃ (arg : InnerProductArgument F G) (st2 : σ),
          InnerProductArgument.prove eng ck ck_c U W st = .ok (arg, st2)) ∧
    (∀ (eng : TE F G σ) (k : Nat) (ck ck_c : List G)
        (U : InnerProductInstance F G) (W : InnerProductWitness F) (st : σ),
        U.b_vec.length = 2 ^ (k + 1) → W.a_vec.length = 2 ^ (k + 1) →
        (eng.challenge .challenge_r
          (eng.absorbComm .R
            (commit (ck.take (W.a_vec.length / 2) ++
                scaleKey (eng.challenge .r (eng.absorbScalar .c U.c
                  (eng.absorbComm .comm_a_vec U.comm_a_vec
                    (eng.absorbProtocolName st)))).1 ck_c)
              (W.a_vec.drop (W.a_vec.length / 2) ++
                [dotProd (W.a_vec.drop (W.a_vec.length / 2))
                  (U.b_vec.take (W.a_vec.length / 2))]))
            (eng.absorbComm .L
              (commit (ck.drop (W.a_vec.length / 2) ++
                  scaleKey (eng.challenge .r (eng.absorbScalar .c U.c
                    (eng.absorbComm .comm_a_vec U.comm_a_vec
                      (eng.absorbProtocolName st)))).1 ck_c)
                (W.a_vec.take (W.a_vec.length / 2) ++
                  [dotProd (W.a_vec.take (W.a_vec.length / 2))
                    (U.b_vec.drop (W.a_vec.length / 2))]))
              (eng.challenge .r (eng.absorbScalar .c U.c
                (eng.absorbComm .comm_a_vec U.comm_a_vec
                  (eng.absorbProtocolName st)))).2))).1 = 0 →
        InnerProductArgument.prove eng ck ck_c U W st = .panic) ∧
    (∀ (eng : TE F G σ) (ck ck_c : List G) (U : InnerProductInstance F G)
        (W : InnerProductWitness F) (st : σ),
        U.b_vec.length = W.a_vec.length →
        ∀ e : NovaError, InnerProductArgument.prove eng ck ck_c U W st ≠ .err e) := by
  refine ⟨?_, ?_, ?_⟩
  · intro eng hnz k ck ck_c U W st hb ha hck
    exact prove_ok_of_nonzero eng hnz k ck ck_c U W st hb ha hck
  · intro eng k ck ck_c U W st hb ha hzero
    simp only [InnerProductArgument.prove]
    rw [if_neg (by rw [ha, hb]; simp), hb, Nat.log2_two_pow]
    simp only [proveLoop]
    rw [prove_inner_eq eng _ W.a_vec U.b_vec ck _ (by rw [ha, hb])
      (by rw [ha, pow_succ]; omega)]
    rw [if_pos hzero]
  · intro eng ck ck_c U W st hlen e h
    simp only [InnerProductArgument.prove, if_neg (not_not_intro hlen)] at h
    split at h
    · rename_i heq
      exact absurd heq (proveLoop_ne_err _ _ _ _ _ _ _ _)
    · simp at h
    · split at h <;> simp at h

/-- Witness for C9: over `ZMod 13`, the constant-`1` engine yields `Ok`
at `n = 1`; the constant-`0` engine makes `prove` panic at `n = 2`; and
on matching lengths `prove` is never the `InvalidIPA` error. -/
theorem prove_zero_challenge_totality_witness :
    (∃ (arg : InnerProductArgument (ZMod 13) (ZMod 13)) (st2 : Unit),
      InnerProductArgument.prove (oneTE (ZMod 13) (ZMod 13)) [5] [7]
        ⟨6, [4], 9⟩ ⟨[3]⟩ () = .ok (arg, st2)) ∧
    InnerProductArgument.prove (zeroTE (ZMod 13) (ZMod 13)) [5, 6] [7]
        ⟨6, [4, 2], 9⟩ ⟨[3, 1]⟩ () = .panic ∧
    InnerProductArgument.prove (oneTE (ZMod 13) (ZMod 13)) [5] [7]
        ⟨6, [4], 9⟩ ⟨[3]⟩ () ≠ .err NovaError.InvalidIPA := by
  refine ⟨?_, ?_, ?_⟩
  · exact (@prove_zero_challenge_totality (ZMod 13) (ZMod 13) Unit _ _ _ _ _).1
      (oneTE (ZMod 13) (ZMod 13)) (fun _ => one_ne_zero)
      0 [5] [7] ⟨6, [4], 9⟩ ⟨[3]⟩ () (by simp) (by simp) (by simp)
  · exact (@prove_zero_challenge_totality (ZMod 13) (ZMod 13) Unit _ _ _ _ _).2.1
      (zeroTE (ZMod 13) (ZMod 13)) 0 [5, 6] [7]
      ⟨6, [4, 2], 9⟩ ⟨[3, 1]⟩ () (by norm_num) (by norm_num) rfl
  · exact (@prove_zero_challenge_totality (ZMod 13) (ZMod 13) Unit _ _ _ _ _).2.2
      (oneTE (ZMod 13) (ZMod 13)) [5] [7]
      ⟨6, [4], 9⟩ ⟨[3]⟩ () (by simp) NovaError.InvalidIPA

/-- Claim C10: determinism.  `prove` samples no randomness: two runs of
`InnerProductArgument::prove` (and of `EvaluationEngine::prove`) on
componentwise-identical inputs and identical initial transcript states
return identical results — the same argument and the same final
transcript state. -/
theorem prove_deterministic :
    (∀ (eng : TE F G σ) (ck₁ ck₂ ck_c₁ ck_c₂ : List G)
        (U₁ U₂ : InnerProductInstance F G) (W₁ W₂ : InnerProductWitness F)
        (st₁ st₂ : σ),
      ck₁ = ck₂ → ck_c₁ = ck_c₂ →
      U₁.comm_a_vec = U₂.comm_a_vec → U₁.b_vec = U₂.b_vec → U₁.c = U₂.c →
      W₁.a_vec = W₂.a_vec → st₁ = st₂ →
      InnerProductArgument.prove eng ck₁ ck_c₁ U₁ W₁ st₁
        = InnerProductArgument.prove eng ck₂ ck_c₂ U₂ W₂ st₂) ∧
    (∀ (eng : TE F G σ) (ck₁ ck₂ ck_s₁ ck_s₂ : List G) (comm₁ comm₂ : G)
        (poly₁ poly₂ point₁ point₂ : List F) (eval₁ eval₂ : F) (st₁ st₂ : σ),
      ck₁ = ck₂ → ck_s₁ = ck_s₂ → comm₁ = comm₂ → poly₁ = poly₂ →
      point₁ = point₂ → eval₁ = eval₂ → st₁ = st₂ →
      EvaluationEngine.prove eng ck₁ ck_s₁ comm₁ poly₁ point₁ eval₁ st₁
        = EvaluationEngine.prove eng ck₂ ck_s₂ comm₂ poly₂ point₂ eval₂ st₂) := by
  constructor
  · intro eng ck₁ ck₂ ck_c₁ ck_c₂ U₁ U₂ W₁ W₂ st₁ st₂ h1 h2 h3 h4 h5 h6 h7
    obtain ⟨cA, bV, cc⟩ := U₁
    obtain ⟨cA2, bV2, cc2⟩ := U₂
    obtain ⟨aV⟩ := W₁
    obtain ⟨aV2⟩ := W₂
    obtain rfl : cA = cA2 := h3
    obtain rfl : bV = bV2 := h4
    obtain rfl : cc = cc2 := h5
    obtain rfl : aV = aV2 := h6
    subst h1
    subst h2
    subst h7
    rfl
  · intro eng ck₁ ck₂ ck_s₁ ck_s₂ comm₁ comm₂ poly₁ poly₂ point₁ point₂
      eval₁ eval₂ st₁ st₂ h1 h2 h3 h4 h5 h6 h7
    subst h1
    subst h2
    subst h3
    subst h4
    subst h5
    subst h6
    subst h7
    rfl

/-- Witness for C10: both determinism statements instantiated on
concrete inputs over `ZMod 13`. -/
theorem prove_deterministic_witness :
    InnerProductArgument.prove (oneTE (ZMod 13) (ZMod 13)) [5] [7]
        ⟨6, [4], 9⟩ ⟨[3]⟩ ()
      = InnerProductArgument.prove (oneTE (ZMod 13) (ZMod 13)) [5] [7]
        ⟨6, [4], 9⟩ ⟨[3]⟩ () ∧
    EvaluationEngine.prove (oneTE (ZMod 13) (ZMod 13)) [5] [7] 6 [3] [2] 9 ()
      = EvaluationEngine.prove (oneTE (ZMod 13) (ZMod 13)) [5] [7] 6 [3] [2] 9 () :=
  ⟨(@prove_deterministic (ZMod 13) (ZMod 13) Unit _ _ _ _ _).1
      (oneTE (ZMod 13) (ZMod 13)) [5] [5] [7] [7] ⟨6, [4], 9⟩ ⟨6, [4], 9⟩
      ⟨[3]⟩ ⟨[3]⟩ () () rfl rfl rfl rfl rfl rfl rfl,
   (@prove_deterministic (ZMod 13) (ZMod 13) Unit _ _ _ _ _).2
      (oneTE (ZMod 13) (ZMod 13)) [5] [5] [7] [7] 6 6 [3] [3] [2] [2] 9 9 () ()
      rfl rfl rfl rfl rfl rfl rfl⟩

end IpaPC
